import Mathlib

/-!
# Verification of the billion-bubbles traversal-and-accumulation engine

Shallow embedding of the core of the `billion-bubbles` repository:

* `src/nasdaq_db.py`   — the read-through fetch cache (`NasdaqDatabase`),
* `src/nasdaq_walker.py` — the depth-limited frontier walker (`NasdaqWalker`),
* `src/nasdaq_graph.py`  — the graph accumulator (`NasdaqGraphBuilder`),
* `src/util.py`          — helpers (`get_path`, `to_int`).

External collaborators (the HTTP API `NasdaqApi`, sqlite/SQLAlchemy storage)
are modelled as environments: a fetch is a function from keys/offsets to
optional responses, the store is explicit state, and a commit outcome is an
input of the model.  Python dicts are modelled as insertion-ordered
association lists (matching Python's guaranteed dict iteration order) or,
where iteration order is irrelevant, as functions into `Option`.

The `hashlib.sha256` dependency of `NasdaqWalker._unsorted_sort_key` is
embedded concretely (FIPS 180-4 over the UTF-8 bytes of the input string),
so that the deterministic-shuffle behaviour can be evaluated on concrete
seeds.
-/

namespace BillionBubbles

/-! ## Association-list helpers (Python `dict` as insertion-ordered alist) -/

/-- `d.get(k)` / `k in d` lookup on an insertion-ordered association list. -/
def alistGet {κ β : Type} [DecidableEq κ] : List (κ × β) → κ → Option β
  | [], _ => none
  | (k', v) :: rest, k => if k' = k then some v else alistGet rest k

/-- `d[k] = v` on an existing key: update in place, preserving position. -/
def alistSet {κ β : Type} [DecidableEq κ] : List (κ × β) → κ → β → List (κ × β)
  | [], _, _ => []
  | (k', v') :: rest, k, v =>
    if k' = k then (k', v) :: rest else (k', v') :: alistSet rest k v

/-- `del d[k]`: remove the entry with key `k` (first occurrence). -/
def alistDel {κ β : Type} [DecidableEq κ] : List (κ × β) → κ → List (κ × β)
  | [], _ => []
  | (k', v') :: rest, k =>
    if k' = k then rest else (k', v') :: alistDel rest k

theorem alistGet_append_self {κ β : Type} [DecidableEq κ]
    (l : List (κ × β)) (k : κ) (v : β) (h : alistGet l k = none) :
    alistGet (l ++ [(k, v)]) k = some v := by
  induction l with
  | nil => simp [alistGet]
  | cons p rest ih =>
    obtain ⟨k', v'⟩ := p
    simp only [alistGet, List.cons_append] at h ⊢
    by_cases hk : k' = k
    · rw [if_pos hk] at h; exact absurd h (by simp)
    · rw [if_neg hk] at h ⊢
      exact ih h

theorem alistGet_none_of_not_mem {κ β : Type} [DecidableEq κ]
    (l : List (κ × β)) (k : κ) (h : k ∉ l.map Prod.fst) : alistGet l k = none := by
  induction l with
  | nil => rfl
  | cons p rest ih =>
    obtain ⟨k', v⟩ := p
    simp only [List.map_cons, List.mem_cons] at h
    push_neg at h
    simpa only [alistGet, if_neg (fun he : k' = k => h.1 he.symm)] using ih h.2

/-- Python's `symbol.upper()` as a structurally recursive map over the
characters (`Char.toUpper` maps `a`–`z` to `A`–`Z` and keeps everything
else; entity symbols are ASCII). -/
def strUpper (s : String) : String := ⟨s.data.map Char.toUpper⟩

/-- Python's `s.startswith(pre)` (structural, so the kernel can evaluate
it). -/
def pyStartsWith (s pre : String) : Bool := pre.data.isPrefixOf s.data

/-! ## The fetch-cache (`NasdaqDatabase`) -/

/-- A row of a paginated holders/positions table.  Only the fields the cache
layer itself touches are modelled: `index` distinguishes rows, `date` is the
`MM/DD/YYYY` date field that `_fix_date` rewrites. -/
structure HRow where
  index : Nat
  date : String
deriving DecidableEq, Repr

/-- Collapse of `get_path(data, "….table.rows")`: a missing table path or a
null payload yields no rows; the empty list and a missing path are equally
falsy in the Python truth test guarding pagination. -/
def pageRows : Option (List HRow) → List HRow
  | none => []
  | some rs => rs

/-- Fuel-driven body of the `while num_total > len(rows)` page-appending loop
of `NasdaqDatabase.company_holders` / `institution_positions` /
`company_insiders`: fetch the next page at `offset = len(rows)`, break when a
page comes back empty or with a missing table, append otherwise.  Returns the
accumulated rows and the number of page fetches performed by the loop. -/
def paginateGo (next : Nat → Option (List HRow)) (numTotal : Int) :
    Nat → List HRow → List HRow × Nat
  | fuel, rows =>
    if (rows.length : Int) < numTotal then
      match fuel with
      | 0 => (rows, 0)
      | fuel + 1 =>
        match pageRows (next rows.length) with
        | [] => (rows, 1)
        | r :: rs =>
          let res := paginateGo next numTotal fuel (rows ++ r :: rs)
          (res.1, res.2 + 1)
    else (rows, 0)

/-- The page-appending loop with exactly enough fuel: each iteration grows
`rows` by at least one, so `(numTotal - len rows).toNat` iterations always
suffice (`paginateGo_adequate` below proves any larger fuel gives the same
answer, i.e. the loop indeed exits). -/
def paginate (next : Nat → Option (List HRow)) (numTotal : Int)
    (rows : List HRow) : List HRow × Nat :=
  paginateGo next numTotal (numTotal - rows.length).toNat rows

/-- The provider behind one `company_holders`-style key: the first page
response and the follow-up pages by offset (`None` = missing table path). -/
structure HoldersApi where
  firstPage : Option (List HRow)
  totalRecords : Int
  nextPage : Nat → Option (List HRow)

/-- Assembly phase of an uncached `NasdaqDatabase.company_holders` call:
initial fetch, then — only when the first page has rows — the pagination
loop driven by the provider-declared `totalRecords`.  Returns the assembled
rows and the total number of page fetches (the initial fetch included). -/
def assembleHolders (api : HoldersApi) : List HRow × Nat :=
  match pageRows api.firstPage with
  | [] => ([], 1)
  | r :: rs =>
    let res := paginate api.nextPage api.totalRecords (r :: rs)
    (res.1, res.2 + 1)

/-- Python `s.split("/")` on the character list: groups between the
separator occurrences (always at least one, possibly empty, group). -/
def splitSlash : List Char → List (List Char)
  | [] => [[]]
  | c :: rest =>
    let r := splitSlash rest
    if c = '/' then [] :: r
    else
      match r with
      | [] => [[c]]
      | g :: gs => (c :: g) :: gs

/-- Python `s.split("/")`. -/
def pySplitSlash (s : String) : List String := (splitSlash s.data).map List.asString

/-- `NasdaqDatabase._fix_date`'s per-value rewrite: split on `"/"` and
reassemble `date[-1:] + date[:2]` joined with `"/"`. -/
def fixDateStr (s : String) : String :=
  let date := pySplitSlash s
  String.intercalate "/" (date.drop (date.length - 1) ++ date.take 2)

/-- `_fix_date` applied to a row list (the `sort` flag is always passed as
`False` by the cache layer). -/
def fixRows (rows : List HRow) : List HRow :=
  rows.map fun r => { r with date := fixDateStr r.date }

/-- Cache state for one `company_holders` key: the rows of the persisted
record (as committed), plus a fetch counter. -/
structure HoldersCacheState where
  stored : Option (List HRow)
  fetches : Nat
deriving Repr

/-- One `NasdaqDatabase.company_holders` call.  On a cache hit the stored
record is returned through `_fix_date` and no fetch happens.  On a miss the
response is assembled, committed as-is, and only the returned value passes
through `_fix_date` — the commit happens before `_fix_date` runs, so the
persisted record keeps the raw `MM/DD/YYYY` dates. -/
def companyHoldersCall (api : HoldersApi) (st : HoldersCacheState) :
    List HRow × HoldersCacheState :=
  match st.stored with
  | some rows => (fixRows rows, st)
  | none =>
    let res := assembleHolders api
    (fixRows res.1, { stored := some res.1, fetches := st.fetches + res.2 })

/-- Outcome of `db_session.commit()`, an input of the model (it depends on
whether a concurrent scraper raced ahead on the same database). -/
inductive CommitResult
  | ok
  /-- `IntegrityError` whose message contains "unique constraint failed". -/
  | uniqueViolation
  /-- `IntegrityError` with any other message. -/
  | integrityOther
  /-- Any exception that is not an `IntegrityError`. -/
  | otherError
deriving DecidableEq, Repr

/-- An error escaping a cache call. -/
inductive DBError
  | integrityError
  | otherError
deriving DecidableEq, Repr

/-- Per-database state for `company_profile` keys: the persisted records and
a count of network fetches (`NasdaqApi.company_profile` invocations). -/
structure ProfileState (α : Type) where
  store : List (String × α)
  fetches : Nat

/-- `NasdaqDatabase.company_profile`: look up the record by upper-cased
symbol; on a hit return it with no network call.  On a miss fetch; a `None`
payload is returned without persisting anything.  Otherwise persist: a
unique-constraint `IntegrityError` is swallowed (rollback, the fetched data
is still returned), any other commit error propagates. -/
def companyProfileCall {α : Type} (api : String → Option α) (commit : CommitResult)
    (st : ProfileState α) (symbol : String) :
    Except DBError (Option α × ProfileState α) :=
  let symbol := strUpper symbol
  match alistGet st.store symbol with
  | some data => .ok (some data, st)
  | none =>
    let st := { st with fetches := st.fetches + 1 }
    match api symbol with
    | none => .ok (none, st)
    | some data =>
      match commit with
      | .ok => .ok (some data, { st with store := st.store ++ [(symbol, data)] })
      | .uniqueViolation => .ok (some data, st)
      | .integrityOther => .error .integrityError
      | .otherError => .error .otherError

/-- Fuel-driven body of the totalless pagination loop of
`NasdaqDatabase.insider_positions`: no declared total is available, so the
loop continues exactly while the accumulated row count equals
`page_size * page` (i.e. every page so far came back full). -/
def paginateNoTotalGo (next : Nat → Option (List HRow)) (pageSize : Nat) :
    Nat → List HRow → Nat → List HRow × Nat
  | fuel, rows, page =>
    if rows.length = pageSize * page then
      match fuel with
      | 0 => (rows, 0)
      | fuel + 1 =>
        match pageRows (next rows.length) with
        | [] => (rows, 1)
        | r :: rs =>
          let res := paginateNoTotalGo next pageSize fuel (rows ++ r :: rs) (page + 1)
          (res.1, res.2 + 1)
    else (rows, 0)

/-- Assembly phase of an uncached `NasdaqDatabase.insider_positions` call:
initial fetch; when it has rows, run the totalless loop starting at
`page = 1`.  Returns assembled rows and the total fetch count. -/
def assembleInsiderPositions (first : Option (List HRow))
    (next : Nat → Option (List HRow)) (pageSize fuel : Nat) : List HRow × Nat :=
  match pageRows first with
  | [] => ([], 1)
  | r :: rs =>
    let res := paginateNoTotalGo next pageSize fuel (r :: rs) 1
    (res.1, res.2 + 1)

/-! ## The graph accumulator (`NasdaqGraphBuilder`) -/

/-- A vertex attribute bag, `NasdaqGraphBuilder.DEFAULT_VERTEX`.  Monetary
and share quantities are rationals (Python floats are modelled as exact
arithmetic; no claim here depends on rounding of binary floats). -/
structure Vertex where
  vertexType : Option String
  name : String
  symbol : String
  label : String
  industry : Option String
  sector : Option String
  region : Option String
  is_director : Int
  is_officer : Int
  is_10percent : Int
  total_shares : ℚ
  total_holdings_dollar : Int
  sale_price : ℚ
deriving DecidableEq, Repr

/-- `NasdaqGraphBuilder.vertex`'s freshly created entry: defaults with
`name`, `symbol` and `label` all set to the stringified key. -/
def defaultVertex (key : String) : Vertex :=
  { vertexType := none, name := key, symbol := key, label := key,
    industry := none, sector := none, region := none,
    is_director := 0, is_officer := 0, is_10percent := 0,
    total_shares := 0, total_holdings_dollar := 0, sale_price := 0 }

/-- An edge attribute bag, `NasdaqGraphBuilder.DEFAULT_EDGE`. -/
structure Edge where
  edgeType : String
  relation : Option String
  own_type : Option String
  weight : ℚ
  date : Option String
  shares : ℚ
  shares_percent : ℚ
  shares_dollar : ℚ
deriving DecidableEq, Repr

/-- `NasdaqGraphBuilder.edge`'s freshly created entry. -/
def defaultEdge (ty : String) : Edge :=
  { edgeType := ty, relation := none, own_type := none, weight := 0,
    date := none, shares := 0, shares_percent := 0, shares_dollar := 0 }

/-- An `edge_map` key: `(source, target, type)`. -/
abbrev EdgeKey := String × String × String

/-- The builder state: `vertex_map` (iteration order never observed by the
claims, so a partial function) and `edge_map` (iterated by `finalize`, so an
insertion-ordered association list). -/
structure GraphState where
  vertexMap : String → Option Vertex
  edgeMap : List (EdgeKey × Edge)

def emptyGraph : GraphState := { vertexMap := fun _ => none, edgeMap := [] }

/-- Point update of the vertex map. -/
def vmSet (vm : String → Option Vertex) (k : String) (v : Vertex) :
    String → Option Vertex :=
  fun k' => if k' = k then some v else vm k'

/-- `NasdaqGraphBuilder.vertex(key)`: create the default entry on first
reference (the returned dict itself is obtained via `vertexMap` lookup). -/
def vertexOp (st : GraphState) (key : String) : GraphState :=
  match st.vertexMap key with
  | some _ => st
  | none => { st with vertexMap := vmSet st.vertexMap key (defaultVertex key) }

/-- `NasdaqGraphBuilder.edge(source, target, type)`: create the default
entry on first reference.  No vertex is created. -/
def edgeOp (st : GraphState) (source target ty : String) : GraphState :=
  match alistGet st.edgeMap (source, target, ty) with
  | some _ => st
  | none =>
    { st with edgeMap := st.edgeMap ++ [((source, target, ty), defaultEdge ty)] }

/-- The counter increments `finalize` applies to the *target* vertex of one
edge, keyed on the edge-key `type` component: `== "Director"`,
`elif == "Officer"`, and independently `startswith("Beneficial")`. -/
def classifyCounters (v : Vertex) (ty : String) : Vertex :=
  let v :=
    if ty = "Director" then { v with is_director := v.is_director + 1 }
    else if ty = "Officer" then { v with is_officer := v.is_officer + 1 }
    else v
  if pyStartsWith ty "Beneficial" then { v with is_10percent := v.is_10percent + 1 }
  else v

/-- One iteration of the `finalize` loop: look up both endpoint vertices
(Python raises `KeyError`, modelled as `none`, if either is absent), bump
the target's counters, then add the edge's `shares` onto the source's
`total_shares`.  The source is re-read after the target update so that a
self-loop (`id_from == id_to`), which aliases the same dict in Python,
receives both updates. -/
def finalizeEdge (vm : String → Option Vertex) (key : EdgeKey) (e : Edge) :
    Option (String → Option Vertex) := do
  let _ ← vm key.1
  let vTo ← vm key.2.1
  let vm1 := vmSet vm key.2.1 (classifyCounters vTo key.2.2)
  let vFrom ← vm1 key.1
  some (vmSet vm1 key.1 { vFrom with total_shares := vFrom.total_shares + e.shares })

/-- The `finalize` pass over the edge list. -/
def finalizeGo (vm : String → Option Vertex) :
    List (EdgeKey × Edge) → Option (String → Option Vertex)
  | [] => some vm
  | (key, e) :: rest => do
    let vm1 ← finalizeEdge vm key e
    finalizeGo vm1 rest

/-- `NasdaqGraphBuilder.finalize()`. -/
def finalizeG (st : GraphState) : Option GraphState :=
  (finalizeGo st.vertexMap st.edgeMap).map fun vm => { st with vertexMap := vm }

/-- Number of edges in `es` whose target is `k` and whose type is `ty`. -/
def targetTypeCount (k ty : String) (es : List (EdgeKey × Edge)) : Int :=
  ((es.filter fun p => p.1.2.1 == k && p.1.2.2 == ty).length : Int)

/-- Number of edges in `es` whose target is `k` and whose type starts with
`"Beneficial"`. -/
def targetBeneficialCount (k : String) (es : List (EdgeKey × Edge)) : Int :=
  ((es.filter fun p => p.1.2.1 == k && pyStartsWith p.1.2.2 "Beneficial").length : Int)

/-- Sum of `shares` over the edges of `es` whose source is `k`. -/
def sourceShares (k : String) (es : List (EdgeKey × Edge)) : ℚ :=
  ((es.filter fun p => p.1.1 == k).map fun p => p.2.shares).sum

/-- What one `finalize` pass over `es` does to a vertex stored at key `k`. -/
def vertexDelta (k : String) (es : List (EdgeKey × Edge)) (v : Vertex) : Vertex :=
  { v with
    is_director := v.is_director + targetTypeCount k "Director" es
    is_officer := v.is_officer + targetTypeCount k "Officer" es
    is_10percent := v.is_10percent + targetBeneficialCount k es
    total_shares := v.total_shares + sourceShares k es }

/-! ## `to_igraph` edge-weight normalization -/

/-- Python's `max(*lst)` on a list of floats: a `TypeError` (`none`) unless
the unpacked list has at least two elements (one non-iterable argument, or
no argument at all, is rejected by `max`). -/
def pyMaxUnpack (l : List ℚ) : Option ℚ :=
  match l with
  | a :: b :: rest => some (rest.foldl max (max a b))
  | _ => none

/-- Python's `round(q, 4)` (round half to even, modelled exactly). -/
def pyRound4 (q : ℚ) : ℚ :=
  let scaled := q * 10000
  let f : Int := ⌊scaled⌋
  let r : Int :=
    if scaled - f < 1/2 then f
    else if (1:ℚ)/2 < scaled - f then f + 1
    else if f % 2 = 0 then f else f + 1
  (r : ℚ) / 10000

/-- The weights of the edges that survive `_check_edge_key` (both endpoints
present in `vertex_map`), in `edge_map` order — this is `graph.es["weight"]`
right after `add_edges`. -/
def esWeights (st : GraphState) : List ℚ :=
  (st.edgeMap.filter fun p =>
      (st.vertexMap p.1.1).isSome && (st.vertexMap p.1.2.1).isSome).map
    fun p => p.2.weight

/-- The edge-weight part of `NasdaqGraphBuilder.to_igraph`: skipped entirely
when `edge_map` is empty; otherwise `max_weight = max(*graph.es["weight"])`
(a `TypeError`, i.e. `none`, unless at least two edges were added), and when
`max_weight` is nonzero every weight is rescaled to
`max(0.00001, round(w / max_weight, 4))`. -/
def toIgraphWeights (st : GraphState) : Option (List ℚ) :=
  if st.edgeMap = [] then some []
  else
    let ws := esWeights st
    match pyMaxUnpack ws with
    | none => none
    | some m =>
      if m ≠ 0 then some (ws.map fun w => max (1/100000) (pyRound4 (w / m)))
      else some ws

/-! ## SHA-256 (the `hashlib.sha256(...).hexdigest()` used by the walker)

Machine words are `Nat`s reduced mod `2^32` at every operation. -/

namespace SHA256

def roundK : List Nat :=
  [1116352408, 1899447441, 3049323471, 3921009573, 961987163,
   1508970993, 2453635748, 2870763221, 3624381080, 310598401,
   607225278, 1426881987, 1925078388, 2162078206, 2614888103,
   3248222580, 3835390401, 4022224774, 264347078, 604807628,
   770255983, 1249150122, 1555081692, 1996064986, 2554220882,
   2821834349, 2952996808, 3210313671, 3336571891, 3584528711,
   113926993, 338241895, 666307205, 773529912, 1294757372,
   1396182291, 1695183700, 1986661051, 2177026350, 2456956037,
   2730485921, 2820302411, 3259730800, 3345764771, 3516065817,
   3600352804, 4094571909, 275423344, 430227734, 506948616,
   659060556, 883997877, 958139571, 1322822218, 1537002063,
   1747873779, 1955562222, 2024104815, 2227730452, 2361852424,
   2428436474, 2756734187, 3204031479, 3329325298]

def initH : List Nat :=
  [1779033703, 3144134277, 1013904242, 2773480762,
   1359893119, 2600822924, 528734635, 1541459225]

def add32 (a b : Nat) : Nat := (a + b) % 4294967296

def rotr (n x : Nat) : Nat := ((x >>> n) ||| (x <<< (32 - n))) % 4294967296

def s0 (x : Nat) : Nat := (rotr 7 x) ^^^ (rotr 18 x) ^^^ (x >>> 3)

def s1 (x : Nat) : Nat := (rotr 17 x) ^^^ (rotr 19 x) ^^^ (x >>> 10)

def bigS0 (x : Nat) : Nat := (rotr 2 x) ^^^ (rotr 13 x) ^^^ (rotr 22 x)

def bigS1 (x : Nat) : Nat := (rotr 6 x) ^^^ (rotr 11 x) ^^^ (rotr 25 x)

def ch (x y z : Nat) : Nat := (x &&& y) ^^^ ((x ^^^ 4294967295) &&& z)

def maj (x y z : Nat) : Nat := (x &&& y) ^^^ (x &&& z) ^^^ (y &&& z)

/-- UTF-8 bytes of one character. -/
def utf8EncodeCharNat (c : Char) : List Nat :=
  let n := c.toNat
  if n < 0x80 then [n]
  else if n < 0x800 then [0xC0 ||| (n >>> 6), 0x80 ||| (n &&& 0x3F)]
  else if n < 0x10000 then
    [0xE0 ||| (n >>> 12), 0x80 ||| ((n >>> 6) &&& 0x3F), 0x80 ||| (n &&& 0x3F)]
  else
    [0xF0 ||| (n >>> 18), 0x80 ||| ((n >>> 12) &&& 0x3F),
     0x80 ||| ((n >>> 6) &&& 0x3F), 0x80 ||| (n &&& 0x3F)]

def utf8Bytes (s : String) : List Nat := (s.data.map utf8EncodeCharNat).flatten

/-- FIPS 180-4 padding: `0x80`, zeros to 56 mod 64, 8-byte big-endian bit
length. -/
def padMsg (msg : List Nat) : List Nat :=
  let L := msg.length
  let zeros := (119 - L % 64) % 64
  msg ++ [0x80] ++ List.replicate zeros 0 ++
    ((List.range 8).map fun i => ((8 * L) >>> (56 - 8 * i)) % 256)

/-- Big-endian 4-byte words. -/
def bytesToWords : List Nat → List Nat
  | b0 :: b1 :: b2 :: b3 :: rest =>
    (((b0 * 256 + b1) * 256 + b2) * 256 + b3) :: bytesToWords rest
  | _ => []

/-- 16-word blocks (structural recursion so that the kernel can reduce it). -/
def chunk16 : List Nat → List (List Nat)
  | w0 :: w1 :: w2 :: w3 :: w4 :: w5 :: w6 :: w7 ::
    w8 :: w9 :: w10 :: w11 :: w12 :: w13 :: w14 :: w15 :: rest =>
    [w0, w1, w2, w3, w4, w5, w6, w7, w8, w9, w10, w11, w12, w13, w14, w15] ::
      chunk16 rest
  | _ => []

/-- Extend the 16-word block to the 64-word message schedule (48 steps). -/
def extendSchedule (w : List Nat) : Nat → List Nat
  | 0 => w
  | n + 1 =>
    let w' := extendSchedule w n
    let len := w'.length
    w' ++ [add32 (add32 (s1 (w'.getD (len - 2) 0)) (w'.getD (len - 7) 0))
                 (add32 (s0 (w'.getD (len - 15) 0)) (w'.getD (len - 16) 0))]

/-- One compression round over the state `[a,b,c,d,e,f,g,h]`. -/
def compressWord (st : List Nat) (ki wi : Nat) : List Nat :=
  match st with
  | [a, b, c, d, e, f, g, h] =>
    let t1 := add32 h (add32 (bigS1 e) (add32 (ch e f g) (add32 ki wi)))
    let t2 := add32 (bigS0 a) (maj a b c)
    [add32 t1 t2, a, b, c, add32 d t1, e, f, g]
  | _ => st

/-- Compress one 16-word block into the hash state. -/
def compressBlock (h : List Nat) (block : List Nat) : List Nat :=
  let w := extendSchedule block 48
  let st := (roundK.zip w).foldl (fun st p => compressWord st p.1 p.2) h
  (h.zip st).map fun p => add32 p.1 p.2

def digestWords (msg : List Nat) : List Nat :=
  (chunk16 (bytesToWords (padMsg msg))).foldl compressBlock initH

def hexDigitChar (n : Nat) : Char :=
  if n < 10 then Char.ofNat (48 + n) else Char.ofNat (87 + n)

def wordToHex (w : Nat) : List Char :=
  (List.range 8).map fun i => hexDigitChar ((w >>> (28 - 4 * i)) % 16)

/-- `hashlib.sha256(s.encode()).hexdigest()`. -/
def sha256hex (s : String) : String :=
  ⟨((digestWords (utf8Bytes s)).map wordToHex).flatten⟩

end SHA256

/-! ## The traversal engine (`NasdaqWalker`)

The `NasdaqDatabase` the walker consumes is abstracted to an environment of
per-key responses.  A response is `Option (Option payload)`: the outer
`none` is a falsy return of the database call (`if not profile: return`),
the inner `Option` is the response's `"data"` field, whose `None` is the
"null payload" of a valid key the provider has no data for.  Row fields are
held already parsed: `url` is the entity id extracted from the row's detail
url (`none` for a falsy url), monetary fields are the `to_int` results
before the `* 1_000` scaling done by the walker. -/

/-- A `holdingsTransactions.table.rows` row as the walker reads it. -/
structure WHolderRow where
  url : Option Nat
  marketValue : Int
deriving DecidableEq, Repr

/-- An `institutionPositions.table.rows` row as the walker reads it. -/
structure WPositionRow where
  url : Option String
  value : Int
deriving DecidableEq, Repr

/-- A `transactionTable.table.rows` row (company insiders) as the walker
reads it. -/
structure WInsiderRow where
  url : Option Nat
deriving DecidableEq, Repr

/-- A `filerTransactionTable.rows` row (insider positions) as the walker
reads it. -/
structure WInsPosRow where
  url : Option String
deriving DecidableEq, Repr

structure HoldersTable where
  rows : List WHolderRow
deriving DecidableEq, Repr

structure PositionsTable where
  rows : List WPositionRow
deriving DecidableEq, Repr

structure InsidersTable where
  rows : List WInsiderRow
deriving DecidableEq, Repr

/-- The payload of an insider-positions response: the transaction rows plus
the flattened `companyInsiders → relationInsider → nameURL` links. -/
structure InsiderPosData where
  rows : List WInsPosRow
  companyInsiders : List (Option Nat)
deriving DecidableEq, Repr

/-- The cached-database responses, per key. -/
structure WalkerEnv where
  companyProfile : String → Option (Option Unit)
  stockChart : String → Option (Option Unit)
  companyHolders : String → Option (Option HoldersTable)
  companyInsiders : String → Option (Option InsidersTable)
  institutionPositions : Nat → Option (Option PositionsTable)
  insiderPositions : Nat → Option (Option InsiderPosData)

/-- An Observer (`NasdaqWalkerInterface`) callback invocation, with the
payload it is handed.  The walker's control flow does not depend on the
observer, so the model records the calls an attached observer receives. -/
inductive WEvent
  | onCompanyProfile (symbol : String) (data : Option Unit)
  | onStockChart (symbol : String) (data : Option Unit)
  | onCompanyHolders (symbol : String) (data : Option HoldersTable)
  | onCompanyInsiders (symbol : String) (data : Option InsidersTable)
  | onInstitutionPositions (id : Nat) (data : Option PositionsTable)
  | onInsiderPositions (id : Nat) (data : Option InsiderPosData)
deriving DecidableEq, Repr

/-- The constructor arguments of `NasdaqWalker`. -/
structure WalkerConfig where
  stockCharts : Bool := true
  followHolders : Bool := true
  followInsiders : Bool := true
  maxDepthHolder : Nat := 0
  maxDepthInsider : Nat := 0
  shareMarketValueGte : Int := 0
  sortOrder : Option String := none

/-- The walker's mutable state.  `visitedCompanies` /
`visitedInstitutions` / `visitedInsiders` record the dequeue order (the
`self._num_*` counters are their lengths). -/
structure WalkerState where
  todoCompany : List (String × Nat)
  todoInstitution : List (Nat × Nat)
  todoInsiders : List (Nat × Nat)
  seen : List String
  numCompanies : Nat
  numInstitutions : Nat
  numInsiders : Nat
  numDuplicateCompanies : Nat
  numDuplicateInstitutions : Nat
  numDuplicateInsiders : Nat
  events : List WEvent
  visitedCompanies : List String
  visitedInstitutions : List Nat
  visitedInsiders : List Nat
deriving DecidableEq, Repr

def initWalker : WalkerState :=
  { todoCompany := [], todoInstitution := [], todoInsiders := [], seen := [],
    numCompanies := 0, numInstitutions := 0, numInsiders := 0,
    numDuplicateCompanies := 0, numDuplicateInstitutions := 0,
    numDuplicateInsiders := 0, events := [],
    visitedCompanies := [], visitedInstitutions := [], visitedInsiders := [] }

/-- `NasdaqWalker.add_company`. -/
def addCompany (st : WalkerState) (symbol : String) (depth : Nat) : WalkerState :=
  let symbol := strUpper symbol
  if symbol ∈ st.seen then
    { st with numDuplicateCompanies := st.numDuplicateCompanies + 1 }
  else
    let st := { st with seen := st.seen ++ [symbol] }
    match alistGet st.todoCompany symbol with
    | none => { st with todoCompany := st.todoCompany ++ [(symbol, depth)] }
    | some d => { st with todoCompany := alistSet st.todoCompany symbol (min d depth) }

/-- `NasdaqWalker.add_institution` (seen key `f"inst-{id}"`). -/
def addInstitution (st : WalkerState) (id : Nat) (depth : Nat) : WalkerState :=
  let seenId := "inst-" ++ toString id
  if seenId ∈ st.seen then
    { st with numDuplicateInstitutions := st.numDuplicateInstitutions + 1 }
  else
    let st := { st with seen := st.seen ++ [seenId] }
    match alistGet st.todoInstitution id with
    | none => { st with todoInstitution := st.todoInstitution ++ [(id, depth)] }
    | some d => { st with todoInstitution := alistSet st.todoInstitution id (min d depth) }

/-- `NasdaqWalker.add_insider` (seen key `f"insi-{id}"`). -/
def addInsider (st : WalkerState) (id : Nat) (depth : Nat) : WalkerState :=
  let seenId := "insi-" ++ toString id
  if seenId ∈ st.seen then
    { st with numDuplicateInsiders := st.numDuplicateInsiders + 1 }
  else
    let st := { st with seen := st.seen ++ [seenId] }
    match alistGet st.todoInsiders id with
    | none => { st with todoInsiders := st.todoInsiders ++ [(id, depth)] }
    | some d => { st with todoInsiders := alistSet st.todoInsiders id (min d depth) }

/-- Python's `str` comparison: lexicographic on code points. -/
def charListLt : List Char → List Char → Bool
  | [], [] => false
  | [], _ :: _ => true
  | _ :: _, [] => false
  | c :: cs, d :: ds =>
    if c.toNat < d.toNat then true
    else if d.toNat < c.toNat then false
    else charListLt cs ds

/-- `a < b` on Python strings. -/
def pyStrLt (a b : String) : Bool := charListLt a.data b.data

/-- `a <= b` on Python strings. -/
def pyStrLe (a b : String) : Bool := !pyStrLt b a

/-- First entry minimizing the sort key, earliest on ties — this is
`sorted(iterable, key=...)[0]` for a stable sort. -/
def minByKey {κ : Type} (f : κ → String) (e : κ × Nat) (es : List (κ × Nat)) :
    κ × Nat :=
  es.foldl (fun best p => if pyStrLt (f p.1) (f best.1) then p else best) e

/-- `NasdaqWalker._unsorted_sort_key`: `sha256(f"{x}{sort_order}")` hex. -/
def unsortedSortKey (sortOrder : String) (x : String) : String :=
  SHA256.sha256hex (x ++ sortOrder)

/-- `NasdaqWalker._next_unsorted` on a todo dict, returning the chosen entry
(key and queued depth): insertion order when the configured sort order is
falsy (absent or the empty string), otherwise the key whose
`sha256(f"{key}{seed}").hexdigest()` is smallest. -/
def nextUnsorted {κ : Type} (sortOrder : Option String) (toStr : κ → String) :
    List (κ × Nat) → Option (κ × Nat)
  | [] => none
  | e :: es =>
    some <|
      match sortOrder with
      | none => e
      | some seed =>
        if seed = "" then e
        else minByKey (fun x => unsortedSortKey seed (toStr x)) e es

/-- `get_path(data, "holdingsTransactions.table.rows")` on the payload. -/
def holdersRows : Option HoldersTable → List WHolderRow
  | none => []
  | some t => t.rows

def positionsRows : Option PositionsTable → List WPositionRow
  | none => []
  | some t => t.rows

def insidersRows : Option InsidersTable → List WInsiderRow
  | none => []
  | some t => t.rows

def insPosRows : Option InsiderPosData → List WInsPosRow
  | none => []
  | some d => d.rows

/-- `NasdaqWalker._follow_company_holders`. -/
def followCompanyHolders (env : WalkerEnv) (cfg : WalkerConfig)
    (st : WalkerState) (symbol : String) (depth : Nat) : WalkerState :=
  match env.companyHolders symbol with
  | none => st
  | some data =>
    let st := { st with events := st.events ++ [.onCompanyHolders symbol data] }
    let rows := holdersRows data
    if depth < cfg.maxDepthHolder ∧ rows ≠ [] then
      rows.foldl (fun st row =>
        match row.url with
        | none => st
        | some instId =>
          if cfg.shareMarketValueGte ≤ row.marketValue * 1000 then
            addInstitution st instId (depth + 1)
          else st) st
    else st

/-- `NasdaqWalker._follow_company_insiders`. -/
def followCompanyInsiders (env : WalkerEnv) (cfg : WalkerConfig)
    (st : WalkerState) (symbol : String) (depth : Nat) : WalkerState :=
  match env.companyInsiders symbol with
  | none => st
  | some data =>
    let st := { st with events := st.events ++ [.onCompanyInsiders symbol data] }
    let rows := insidersRows data
    if depth < cfg.maxDepthInsider ∧ rows ≠ [] then
      rows.foldl (fun st row =>
        match row.url with
        | none => st
        | some insId => addInsider st insId (depth + 1)) st
    else st

/-- `NasdaqWalker._follow_institution_positions`. -/
def followInstitutionPositions (env : WalkerEnv) (cfg : WalkerConfig)
    (st : WalkerState) (id : Nat) (depth : Nat) : WalkerState :=
  match env.institutionPositions id with
  | none => st
  | some data =>
    let st := { st with events := st.events ++ [.onInstitutionPositions id data] }
    let rows := positionsRows data
    if depth < cfg.maxDepthHolder ∧ rows ≠ [] then
      rows.foldl (fun st row =>
        match row.url with
        | none => st
        | some symbol =>
          if cfg.shareMarketValueGte ≤ row.value * 1000 then
            addCompany st symbol (depth + 1)
          else st) st
    else st

/-- `NasdaqWalker._follow_insider_positions` (transaction rows enqueue
companies, then — inside the same rows-present guard — the cross-referenced
`companyInsiders` links enqueue insiders). -/
def followInsiderPositions (env : WalkerEnv) (cfg : WalkerConfig)
    (st : WalkerState) (id : Nat) (depth : Nat) : WalkerState :=
  match env.insiderPositions id with
  | none => st
  | some data =>
    let st := { st with events := st.events ++ [.onInsiderPositions id data] }
    let rows := insPosRows data
    if depth < cfg.maxDepthInsider ∧ rows ≠ [] then
      let st := rows.foldl (fun st row =>
        match row.url with
        | none => st
        | some symbol => addCompany st symbol (depth + 1)) st
      match data with
      | none => st
      | some d =>
        if d.companyInsiders ≠ [] then
          d.companyInsiders.foldl (fun st url =>
            match url with
            | none => st
            | some insId => addInsider st insId (depth + 1)) st
        else st
    else st

/-- The optional stock-chart fetch of `_follow_company`: when enabled and
the response is truthy, deliver its payload to the observer. -/
def stockChartStep (env : WalkerEnv) (cfg : WalkerConfig) (st : WalkerState)
    (symbol : String) : WalkerState :=
  if cfg.stockCharts then
    match env.stockChart symbol with
    | none => st
    | some chart => { st with events := st.events ++ [.onStockChart symbol chart] }
  else st

/-- `NasdaqWalker._follow_company`: dequeue, fetch the profile (a falsy
response aborts the step), deliver it, optionally fetch the stock chart,
then follow holders and insiders when the dequeued depth allows. -/
def followCompany (env : WalkerEnv) (cfg : WalkerConfig) (st : WalkerState) :
    WalkerState :=
  match nextUnsorted cfg.sortOrder (fun s => s) st.todoCompany with
  | none => st
  | some (symbol, depth) =>
    let st := { st with
      todoCompany := alistDel st.todoCompany symbol,
      numCompanies := st.numCompanies + 1,
      visitedCompanies := st.visitedCompanies ++ [symbol] }
    match env.companyProfile symbol with
    | none => st
    | some profileData =>
      let st := { st with events := st.events ++ [.onCompanyProfile symbol profileData] }
      let st := stockChartStep env cfg st symbol
      let st :=
        if cfg.followHolders ∧ depth < cfg.maxDepthHolder then
          followCompanyHolders env cfg st symbol (depth + 1)
        else st
      if cfg.followInsiders ∧ depth < cfg.maxDepthInsider then
        followCompanyInsiders env cfg st symbol (depth + 1)
      else st

/-- `NasdaqWalker._follow_institution`. -/
def followInstitution (env : WalkerEnv) (cfg : WalkerConfig) (st : WalkerState) :
    WalkerState :=
  match nextUnsorted cfg.sortOrder toString st.todoInstitution with
  | none => st
  | some (id, depth) =>
    let st := { st with
      todoInstitution := alistDel st.todoInstitution id,
      numInstitutions := st.numInstitutions + 1,
      visitedInstitutions := st.visitedInstitutions ++ [id] }
    if cfg.followHolders ∧ depth < cfg.maxDepthHolder then
      followInstitutionPositions env cfg st id (depth + 1)
    else st

/-- `NasdaqWalker._follow_insider`. -/
def followInsider (env : WalkerEnv) (cfg : WalkerConfig) (st : WalkerState) :
    WalkerState :=
  match nextUnsorted cfg.sortOrder toString st.todoInsiders with
  | none => st
  | some (id, depth) =>
    let st := { st with
      todoInsiders := alistDel st.todoInsiders id,
      numInsiders := st.numInsiders + 1,
      visitedInsiders := st.visitedInsiders ++ [id] }
    if cfg.followInsiders ∧ depth < cfg.maxDepthInsider then
      followInsiderPositions env cfg st id (depth + 1)
    else st

/-- One iteration of the `NasdaqWalker.run` loop: at most one company, one
institution and one insider are processed, in that order. -/
def walkRound (env : WalkerEnv) (cfg : WalkerConfig) (st : WalkerState) :
    WalkerState :=
  followInsider env cfg (followInstitution env cfg (followCompany env cfg st))

/-- `NasdaqWalker.run`, fuel-driven: loop while any frontier is non-empty.
(The Python loop need not terminate for an environment discovering ever-new
keys, so the number of rounds is an explicit bound.) -/
def runWalker (env : WalkerEnv) (cfg : WalkerConfig) :
    Nat → WalkerState → WalkerState
  | 0, st => st
  | fuel + 1, st =>
    if st.todoCompany = [] ∧ st.todoInstitution = [] ∧ st.todoInsiders = [] then st
    else runWalker env cfg fuel (walkRound env cfg st)

/-! ## Supporting lemmas -/

theorem paginateGo_zero (next : Nat → Option (List HRow)) (numTotal : Int)
    (rows : List HRow) : paginateGo next numTotal 0 rows = (rows, 0) := by
  show (if (rows.length : Int) < numTotal then (rows, 0) else (rows, 0)) = (rows, 0)
  exact ite_self _

theorem paginateGo_succ (next : Nat → Option (List HRow)) (numTotal : Int)
    (fuel : Nat) (rows : List HRow) :
    paginateGo next numTotal (fuel + 1) rows =
      if (rows.length : Int) < numTotal then
        match pageRows (next rows.length) with
        | [] => (rows, 1)
        | r :: rs =>
          let res := paginateGo next numTotal fuel (rows ++ r :: rs)
          (res.1, res.2 + 1)
      else (rows, 0) := rfl

theorem paginateGo_stop (next : Nat → Option (List HRow)) (numTotal : Int)
    (fuel : Nat) (rows : List HRow) (h : ¬ (rows.length : Int) < numTotal) :
    paginateGo next numTotal fuel rows = (rows, 0) := by
  cases fuel with
  | zero => exact paginateGo_zero next numTotal rows
  | succ f => rw [paginateGo_succ, if_neg h]

/-- Any sufficiently large fuel makes the declared-total pagination loop
reach its exit and agree with `paginate` — i.e. the `while num_total >
len(rows)` loop stops (each iteration either breaks on an empty page or
grows `rows` by at least one towards the bound). -/
theorem paginateGo_eq_paginate (next : Nat → Option (List HRow)) (numTotal : Int)
    (fuel : Nat) (rows : List HRow) (h : numTotal ≤ (rows.length : Int) + fuel) :
    paginateGo next numTotal fuel rows = paginate next numTotal rows := by
  induction fuel using Nat.strong_induction_on generalizing rows with
  | _ fuel ih =>
    by_cases hlt : (rows.length : Int) < numTotal
    · have hfuel : fuel ≠ 0 := by
        intro h0; rw [h0] at h; omega
      obtain ⟨f, rfl⟩ := Nat.exists_eq_succ_of_ne_zero hfuel
      have hm : (numTotal - rows.length).toNat = (numTotal - rows.length - 1).toNat + 1 := by
        omega
      rw [paginate, hm, paginateGo_succ, paginateGo_succ, if_pos hlt, if_pos hlt]
      cases hpage : pageRows (next rows.length) with
      | nil => rfl
      | cons r rs =>
        have hlen : (rows ++ r :: rs).length = rows.length + (rs.length + 1) := by
          simp [List.length_append]
        have h₁ : numTotal ≤ ((rows ++ r :: rs).length : Int) + f := by
          rw [hlen]; push_cast; omega
        have h₂ : numTotal ≤ ((rows ++ r :: rs).length : Int)
            + (numTotal - rows.length - 1).toNat := by
          rw [hlen]; push_cast; omega
        have e₁ := ih f (by omega) (rows ++ r :: rs) h₁
        have e₂ := ih (numTotal - rows.length - 1).toNat (by omega) (rows ++ r :: rs) h₂
        simp only [e₁, e₂]
    · rw [paginate, paginateGo_stop _ _ _ _ hlt, paginateGo_stop _ _ _ _ hlt]

/-- Pages shaped like the repository's unit-test `FakeApi`: rows indexed
`a, …, b-1`, each carrying the raw date `"01/30/2000"`. -/
def hrowRange (a b : Nat) : List HRow :=
  (List.range (b - a)).map fun i => ⟨a + i, "01/30/2000"⟩

/-! ## Claims -/

/-- C7 counterexample: for the input date `"01/30/2000"` the value returned
to the caller is `"2000/01/30"`, but the value persisted by
`company_holders` is still `"01/30/2000"` — the record is committed before
`_fix_date` runs, refuting "re-renders the date to YYYY/MM/DD before
persisting the record". -/
theorem c7_counterexample :
    (companyHoldersCall ⟨some [⟨0, "01/30/2000"⟩], 1, fun _ => none⟩
        ⟨none, 0⟩).2.stored = some [⟨0, "01/30/2000"⟩]
    ∧ (companyHoldersCall ⟨some [⟨0, "01/30/2000"⟩], 1, fun _ => none⟩
        ⟨none, 0⟩).2.stored ≠ some [⟨0, "2000/01/30"⟩]
    ∧ (companyHoldersCall ⟨some [⟨0, "01/30/2000"⟩], 1, fun _ => none⟩
        ⟨none, 0⟩).1 = [⟨0, "2000/01/30"⟩] := by
  refine ⟨rfl, ?_, rfl⟩
  decide

/-- C7 (amended): `_fix_date` turns `"01/30/2000"` into `"2000/01/30"`, and
`company_holders` re-renders every row date in the value *returned* to the
caller — on the fresh-fetch path and on the cache-hit path alike — while
the record it persists keeps the raw assembled rows (fresh path commits
before `_fix_date`). -/
theorem c7_date_normalization :
    fixDateStr "01/30/2000" = "2000/01/30"
    ∧ (∀ (api : HoldersApi) (n : Nat),
        companyHoldersCall api ⟨none, n⟩
          = (fixRows (assembleHolders api).1,
             ⟨some (assembleHolders api).1, n + (assembleHolders api).2⟩))
    ∧ (∀ (api : HoldersApi) (rows : List HRow) (n : Nat),
        companyHoldersCall api ⟨some rows, n⟩ = (fixRows rows, ⟨some rows, n⟩)) := by
  refine ⟨by decide, fun api n => rfl, fun api rows n => rfl⟩

/-- C8: a `company_profile` record is written at most once — a cache hit
performs no write at all, and on a miss a unique-constraint violation
raised by the commit (a concurrent writer raced ahead) is swallowed: the
session is rolled back (store unchanged), no error propagates, and the
fetched response is still returned; an `IntegrityError` with any other
message, or any non-`IntegrityError` persistence error, propagates. -/
theorem c8_at_most_once_write {α : Type} (api : String → Option α)
    (commit : CommitResult) (st : ProfileState α) (sym : String) (d : α) :
    (alistGet st.store (strUpper sym) = some d →
      companyProfileCall api commit st sym = .ok (some d, st))
    ∧ (alistGet st.store (strUpper sym) = none → api (strUpper sym) = some d →
      companyProfileCall api .uniqueViolation st sym
        = .ok (some d, { st with fetches := st.fetches + 1 }))
    ∧ (alistGet st.store (strUpper sym) = none → api (strUpper sym) = some d →
      companyProfileCall api .integrityOther st sym = .error .integrityError)
    ∧ (alistGet st.store (strUpper sym) = none → api (strUpper sym) = some d →
      companyProfileCall api .otherError st sym = .error .otherError) := by
  refine ⟨fun hhit => ?_, fun hmiss hapi => ?_, fun hmiss hapi => ?_, fun hmiss hapi => ?_⟩
  all_goals simp only [companyProfileCall]
  · rw [hhit]
  · rw [hmiss, hapi]
  · rw [hmiss, hapi]
  · rw [hmiss, hapi]

/-- Closed instance of `c8_at_most_once_write` (store holding `"A"`,
provider returning a payload for every key). -/
theorem c8_witness :
    companyProfileCall (fun _ => some 7) .uniqueViolation
      (⟨[("A", 5)], 3⟩ : ProfileState Nat) "B" = .ok (some 7, ⟨[("A", 5)], 4⟩) :=
  (c8_at_most_once_write (fun _ => some 7) .uniqueViolation ⟨[("A", 5)], 3⟩ "B" 7).2.1
    (by decide) (by decide)

/-- C3 counterexample: for a `company_profile` key with a null payload the
claim "calling the cache's get operation twice issues exactly one network
fetch sequence" fails — nothing is persisted, so the second call fetches
again (fetch counter reaches 2). -/
theorem c3_counterexample :
    companyProfileCall (fun _ => (none : Option Unit)) .ok ⟨[], 0⟩ "AAA"
      = .ok (none, ⟨[], 1⟩)
    ∧ companyProfileCall (fun _ => (none : Option Unit)) .ok ⟨[], 1⟩ "AAA"
      = .ok (none, ⟨[], 2⟩) :=
  ⟨rfl, rfl⟩

/-- C3 (amended): for every `company_profile` key whose fetch yields a
non-null payload, and for every paginated `company_holders` key, a second
get performs no network call and returns data identical to the first
call's result; a `company_profile` key with a null payload is not cached
and is re-fetched by each call. -/
theorem c3_cache_idempotence :
    (∀ (α : Type) (api : String → Option α) (st : ProfileState α) (sym : String) (d : α),
      alistGet st.store (strUpper sym) = none → api (strUpper sym) = some d →
      ∃ st1 : ProfileState α,
        companyProfileCall api .ok st sym = .ok (some d, st1)
        ∧ st1.fetches = st.fetches + 1
        ∧ ∀ commit₂ : CommitResult,
            companyProfileCall api commit₂ st1 sym = .ok (some d, st1))
    ∧ (∀ (api : HoldersApi) (n : Nat),
        companyHoldersCall api (companyHoldersCall api ⟨none, n⟩).2
          = companyHoldersCall api ⟨none, n⟩) := by
  constructor
  · intro α api st sym d hmiss hapi
    refine ⟨⟨st.store ++ [(strUpper sym, d)], st.fetches + 1⟩, ?_, rfl, ?_⟩
    · simp only [companyProfileCall]
      rw [hmiss, hapi]
    · intro commit₂
      simp only [companyProfileCall]
      rw [alistGet_append_self st.store (strUpper sym) d hmiss]
  · intro api n
    rfl

/-- Closed instance of `c3_cache_idempotence`: an empty store, a provider
always returning payload `7`. -/
theorem c3_witness :
    alistGet ([] : List (String × Nat)) (strUpper "A") = none
    ∧ ∃ st1 : ProfileState Nat,
        companyProfileCall (fun _ => some 7) .ok (⟨[], 0⟩ : ProfileState Nat) "A"
          = .ok (some 7, st1)
        ∧ st1.fetches = 0 + 1
        ∧ ∀ commit₂ : CommitResult,
            companyProfileCall (fun _ => some 7) commit₂ st1 "A" = .ok (some 7, st1) :=
  ⟨rfl, c3_cache_idempotence.1 Nat (fun _ => some 7) ⟨[], 0⟩ "A" 7 rfl rfl⟩

theorem paginateNoTotalGo_succ (next : Nat → Option (List HRow)) (pageSize fuel : Nat)
    (rows : List HRow) (page : Nat) :
    paginateNoTotalGo next pageSize (fuel + 1) rows page =
      if rows.length = pageSize * page then
        match pageRows (next rows.length) with
        | [] => (rows, 1)
        | r :: rs =>
          let res := paginateNoTotalGo next pageSize fuel (rows ++ r :: rs) (page + 1)
          (res.1, res.2 + 1)
      else (rows, 0) := rfl

/-- In the totalless loop a further page fetch happens iff the loop
condition `len(rows) == page_size * page` holds on entry. -/
theorem paginateNoTotal_requests_iff (next : Nat → Option (List HRow))
    (pageSize fuel : Nat) (rows : List HRow) (page : Nat) :
    1 ≤ (paginateNoTotalGo next pageSize (fuel + 1) rows page).2
      ↔ rows.length = pageSize * page := by
  rw [paginateNoTotalGo_succ]
  by_cases hc : rows.length = pageSize * page
  · rw [if_pos hc]
    cases pageRows (next rows.length) with
    | nil => simpa using hc
    | cons r rs => simpa using hc
  · rw [if_neg hc]
    simpa using hc

/-- C4: (a) a declared total of 150 rows at page size 100 assembles exactly
the 150 rows in exactly 2 fetches; (b) a declared total exceeding the rows
actually available (the next page is empty) stops and returns the 100 rows
obtained, again in 2 fetches; (c) the declared-total loop exits for every
sufficiently large iteration bound, always agreeing with `paginate` (no
infinite loop); (d,e) in the totalless `insider_positions` loop a further
page is requested exactly when the accumulated rows are full-page aligned —
in particular, right after the initial fetch, exactly when the first page
came back full. -/
theorem c4_pagination :
    (assembleHolders ⟨some (hrowRange 0 100), 150,
        fun off => some (hrowRange off (min (off + 100) 150))⟩ = (hrowRange 0 150, 2))
    ∧ (assembleHolders ⟨some (hrowRange 0 100), 150, fun _ => some []⟩
        = (hrowRange 0 100, 2))
    ∧ (∀ (next : Nat → Option (List HRow)) (numTotal : Int) (fuel : Nat) (rows : List HRow),
        numTotal ≤ (rows.length : Int) + fuel →
        paginateGo next numTotal fuel rows = paginate next numTotal rows)
    ∧ (∀ (next : Nat → Option (List HRow)) (pageSize fuel : Nat) (rows : List HRow)
        (page : Nat),
        1 ≤ (paginateNoTotalGo next pageSize (fuel + 1) rows page).2
          ↔ rows.length = pageSize * page)
    ∧ (∀ (first : Option (List HRow)) (next : Nat → Option (List HRow))
        (pageSize fuel : Nat),
        pageRows first ≠ [] →
        (2 ≤ (assembleInsiderPositions first next pageSize (fuel + 1)).2
          ↔ (pageRows first).length = pageSize)) := by
  refine ⟨by set_option maxRecDepth 40000 in decide,
    by set_option maxRecDepth 40000 in decide, paginateGo_eq_paginate,
    paginateNoTotal_requests_iff, ?_⟩
  intro first next pageSize fuel hne
  cases hp : pageRows first with
  | nil => exact absurd hp hne
  | cons r rs =>
    have hiff := paginateNoTotal_requests_iff next pageSize fuel (r :: rs) 1
    simp only [assembleInsiderPositions, hp]
    constructor
    · intro h2
      have h1 : 1 ≤ (paginateNoTotalGo next pageSize (fuel + 1) (r :: rs) 1).2 := by
        omega
      have := hiff.mp h1
      simpa [Nat.mul_one] using this
    · intro hlen
      have h1 : 1 ≤ (paginateNoTotalGo next pageSize (fuel + 1) (r :: rs) 1).2 :=
        hiff.mpr (by simpa [Nat.mul_one] using hlen)
      omega

/-- Closed instance of `c4_pagination`: parts (c) and (e) at concrete
inputs. -/
theorem c4_witness :
    ((150 : Int) ≤ ((hrowRange 0 100).length : Int) + 50
      ∧ paginateGo (fun _ => some []) 150 50 (hrowRange 0 100)
          = paginate (fun _ => some []) 150 (hrowRange 0 100))
    ∧ (pageRows (some [⟨0, "01/30/2000"⟩]) ≠ []
      ∧ (2 ≤ (assembleInsiderPositions (some [⟨0, "01/30/2000"⟩]) (fun _ => none) 1
            (2 + 1)).2
          ↔ (pageRows (some [⟨0, "01/30/2000"⟩])).length = 1)) :=
  ⟨⟨by decide, c4_pagination.2.2.1 (fun _ => some []) 150 50 (hrowRange 0 100) (by decide)⟩,
   ⟨by decide, c4_pagination.2.2.2.2 (some [⟨0, "01/30/2000"⟩]) (fun _ => none) 1 2
      (by decide)⟩⟩

/-- C10: `to_igraph`'s weight normalization computes
`max(*graph.es["weight"])`, which is a `TypeError` when `edge_map` holds
exactly one edge (a single float is unpacked into `max`); with at least two
added edges the export succeeds; and when the maximum weight is zero the
rescaling is skipped entirely (weights returned unchanged). -/
theorem c10_weight_normalization (st : GraphState) :
    (∀ (k : EdgeKey) (e : Edge), st.edgeMap = [(k, e)] → toIgraphWeights st = none)
    ∧ (2 ≤ (esWeights st).length → (toIgraphWeights st).isSome = true)
    ∧ (st.edgeMap ≠ [] → pyMaxUnpack (esWeights st) = some 0 →
        toIgraphWeights st = some (esWeights st)) := by
  refine ⟨fun k e h1 => ?_, fun h2 => ?_, fun hne hmax => ?_⟩
  · have hne : st.edgeMap ≠ [] := by rw [h1]; simp
    have hmax : pyMaxUnpack (esWeights st) = none := by
      rw [esWeights, h1]
      by_cases hp : ((st.vertexMap k.1).isSome && (st.vertexMap k.2.1).isSome) = true
      · simp [List.filter, hp, pyMaxUnpack]
      · simp [List.filter, hp, pyMaxUnpack]
    simp only [toIgraphWeights, if_neg hne, hmax]
  · have hne : st.edgeMap ≠ [] := by
      intro h0
      rw [esWeights, h0] at h2
      simp at h2
    cases hes : esWeights st with
    | nil => rw [hes] at h2; simp at h2
    | cons a t =>
      cases t with
      | nil => rw [hes] at h2; simp at h2
      | cons b rest =>
        simp only [toIgraphWeights, if_neg hne, hes, pyMaxUnpack]
        split <;> rfl
  · simp only [toIgraphWeights, if_neg hne, hmax]
    simp

/-- Closed instance of `c10_weight_normalization`: a builder state holding
exactly one edge makes the export fail. -/
theorem c10_witness :
    toIgraphWeights ⟨fun _ => none, [(("A", "B", "holder"), defaultEdge "holder")]⟩
      = none :=
  (c10_weight_normalization ⟨fun _ => none, [(("A", "B", "holder"), defaultEdge "holder")]⟩).1
    ("A", "B", "holder") (defaultEdge "holder") rfl

/-! ### `finalize` characterization (C2) -/

theorem vmSet_self (vm : String → Option Vertex) (k : String) (v : Vertex) :
    vmSet vm k v k = some v := by simp [vmSet]

theorem vmSet_ne (vm : String → Option Vertex) (k : String) (v : Vertex)
    (k' : String) (h : k' ≠ k) : vmSet vm k v k' = vm k' := by simp [vmSet, h]

/-- The `elif` chain plus the independent `startswith` test of `finalize`,
written as three independent conditional increments (sound because
`"Director" ≠ "Officer"`). -/
theorem classifyCounters_eq (v : Vertex) (ty : String) :
    classifyCounters v ty =
      { v with
        is_director := v.is_director + (if ty = "Director" then 1 else 0)
        is_officer := v.is_officer + (if ty = "Officer" then 1 else 0)
        is_10percent := v.is_10percent
          + (if pyStartsWith ty "Beneficial" then 1 else 0) } := by
  by_cases hd : ty = "Director"
  · subst hd
    simp [classifyCounters, show pyStartsWith "Director" "Beneficial" = false from by decide]
  · by_cases ho : ty = "Officer"
    · subst ho
      simp [classifyCounters, show pyStartsWith "Officer" "Beneficial" = false from by decide]
    · by_cases hb : pyStartsWith ty "Beneficial" <;>
        simp [classifyCounters, hd, ho, hb]

theorem targetTypeCount_nil (k ty : String) : targetTypeCount k ty [] = 0 := rfl

theorem targetBeneficialCount_nil (k : String) : targetBeneficialCount k [] = 0 := rfl

theorem sourceShares_nil (k : String) : sourceShares k [] = 0 := rfl

theorem targetTypeCount_cons (k ty : String) (p : EdgeKey × Edge)
    (es : List (EdgeKey × Edge)) :
    targetTypeCount k ty (p :: es)
      = (if p.1.2.1 = k ∧ p.1.2.2 = ty then 1 else 0) + targetTypeCount k ty es := by
  simp only [targetTypeCount, List.filter_cons]
  by_cases h : p.1.2.1 = k ∧ p.1.2.2 = ty
  · rw [if_pos h, if_pos (by simp [h.1, h.2])]
    simp [Int.add_comm]
  · rw [if_neg h, if_neg ?_]
    · simp
    · simp only [Bool.and_eq_true, beq_iff_eq]
      exact h

theorem targetBeneficialCount_cons (k : String) (p : EdgeKey × Edge)
    (es : List (EdgeKey × Edge)) :
    targetBeneficialCount k (p :: es)
      = (if p.1.2.1 = k ∧ pyStartsWith p.1.2.2 "Beneficial" then 1 else 0)
        + targetBeneficialCount k es := by
  simp only [targetBeneficialCount, List.filter_cons]
  by_cases h : p.1.2.1 = k ∧ pyStartsWith p.1.2.2 "Beneficial"
  · rw [if_pos h, if_pos (by simp [h.1, h.2])]
    simp [Int.add_comm]
  · rw [if_neg h, if_neg ?_]
    · simp
    · simp only [Bool.and_eq_true, beq_iff_eq]
      exact h

theorem sourceShares_cons (k : String) (p : EdgeKey × Edge)
    (es : List (EdgeKey × Edge)) :
    sourceShares k (p :: es)
      = (if p.1.1 = k then p.2.shares else 0) + sourceShares k es := by
  simp only [sourceShares, List.filter_cons]
  by_cases h : p.1.1 = k
  · rw [if_pos h, if_pos (by simp [h])]
    simp
  · rw [if_neg h, if_neg (by simpa using h)]
    simp

/-- One `finalize` pass over no edges changes nothing. -/
theorem vertexDelta_nil (k : String) (v : Vertex) : vertexDelta k [] v = v := by
  cases v
  simp [vertexDelta, targetTypeCount_nil, targetBeneficialCount_nil, sourceShares_nil]

/-- Single-edge deltas compose into the cons delta. -/
theorem vertexDelta_cons (k : String) (p : EdgeKey × Edge)
    (es : List (EdgeKey × Edge)) (v : Vertex) :
    vertexDelta k es (vertexDelta k [p] v) = vertexDelta k (p :: es) v := by
  cases v
  simp only [vertexDelta, targetTypeCount_cons, targetBeneficialCount_cons,
    sourceShares_cons, targetTypeCount_nil, targetBeneficialCount_nil,
    sourceShares_nil, Vertex.mk.injEq, true_and, and_true, eq_self_iff_true]
  refine ⟨by ring, by ring, by ring, by ring⟩

/-- A single edge not incident to `k` leaves `k`'s vertex unchanged. -/
theorem vertexDelta_single_other (k f t ty : String) (e : Edge)
    (hkt : t ≠ k) (hkf : f ≠ k) (v : Vertex) :
    vertexDelta k [((f, t, ty), e)] v = v := by
  cases v
  simp [vertexDelta, targetTypeCount_cons, targetBeneficialCount_cons,
    sourceShares_cons, targetTypeCount_nil, targetBeneficialCount_nil,
    sourceShares_nil, hkt, hkf]

/-- A single edge out of `k` (into some other vertex) only adds its shares
onto `k`'s running total. -/
theorem vertexDelta_single_source (k t ty : String) (e : Edge)
    (hkt : t ≠ k) (v : Vertex) :
    vertexDelta k [((k, t, ty), e)] v
      = { v with total_shares := v.total_shares + e.shares } := by
  cases v
  simp [vertexDelta, targetTypeCount_cons, targetBeneficialCount_cons,
    sourceShares_cons, targetTypeCount_nil, targetBeneficialCount_nil,
    sourceShares_nil, hkt]

/-- A single edge into `k` (from some other vertex) applies exactly the
counter classification. -/
theorem vertexDelta_single_target (k f ty : String) (e : Edge)
    (hkf : f ≠ k) (v : Vertex) :
    vertexDelta k [((f, k, ty), e)] v = classifyCounters v ty := by
  cases v
  rw [classifyCounters_eq]
  simp [vertexDelta, targetTypeCount_cons, targetBeneficialCount_cons,
    sourceShares_cons, targetTypeCount_nil, targetBeneficialCount_nil,
    sourceShares_nil, hkf]

/-- The counter classification never touches the share total. -/
theorem classifyCounters_total_shares (v : Vertex) (ty : String) :
    (classifyCounters v ty).total_shares = v.total_shares := by
  rw [classifyCounters_eq]

/-- A single self-loop at `k` applies the counters and the share total. -/
theorem vertexDelta_single_self (k ty : String) (e : Edge) (v : Vertex) :
    vertexDelta k [((k, k, ty), e)] v
      = { classifyCounters v ty with total_shares := v.total_shares + e.shares } := by
  cases v
  rw [classifyCounters_eq]
  simp [vertexDelta, targetTypeCount_cons, targetBeneficialCount_cons,
    sourceShares_cons, targetTypeCount_nil, targetBeneficialCount_nil,
    sourceShares_nil]

/-- What one iteration of the `finalize` loop does, pointwise: the target's
counters are bumped according to the edge-key type and the source's
`total_shares` grows by the edge's shares (both on the same vertex for a
self-loop, which aliases one dict in Python). -/
theorem finalizeEdge_point (vm : String → Option Vertex) (key : EdgeKey) (e : Edge)
    (vf vt : Vertex) (hvf : vm key.1 = some vf) (hvt : vm key.2.1 = some vt) :
    finalizeEdge vm key e = some (fun k => (vm k).map (vertexDelta k [(key, e)])) := by
  obtain ⟨f, t, ty⟩ := key
  simp only at hvf hvt
  by_cases hft : f = t
  · subst hft
    rw [hvf] at hvt
    injection hvt with hv
    subst hv
    simp only [finalizeEdge, hvf, Option.bind_eq_bind, Option.some_bind, vmSet_self]
    congr 1
    funext k
    by_cases hkf : k = f
    · subst hkf
      rw [vmSet_self, hvf, Option.map_some', vertexDelta_single_self]
      simp [classifyCounters_total_shares]
    · rw [vmSet_ne _ _ _ _ hkf, vmSet_ne _ _ _ _ hkf]
      cases hvk : vm k with
      | none => rfl
      | some v =>
        rw [Option.map_some',
          vertexDelta_single_other k f f ty e (fun h => hkf h.symm) (fun h => hkf h.symm)]
  · have h1 : vmSet vm t (classifyCounters vt ty) f = some vf := by
      rw [vmSet_ne _ _ _ _ hft, hvf]
    simp only [finalizeEdge, hvf, hvt, h1, Option.bind_eq_bind, Option.some_bind]
    congr 1
    funext k
    by_cases hkf : k = f
    · subst hkf
      rw [vmSet_self, hvf, Option.map_some',
        vertexDelta_single_source k t ty e (fun h => hft h.symm)]
    · by_cases hkt : k = t
      · subst hkt
        rw [vmSet_ne _ _ _ _ hkf, vmSet_self, hvt, Option.map_some',
          vertexDelta_single_target k f ty e (fun h => hkf h.symm)]
      · rw [vmSet_ne _ _ _ _ hkf, vmSet_ne _ _ _ _ hkt]
        cases hvk : vm k with
        | none => rfl
        | some v =>
          rw [Option.map_some',
            vertexDelta_single_other k f t ty e (fun h => hkt h.symm) (fun h => hkf h.symm)]

/-- The `finalize` loop, pointwise, on a well-formed state (every edge
endpoint present in the vertex map, as any state produced by the observer
callbacks is): it succeeds, and every vertex receives exactly the counter
increments of its incoming edges and the share total of its outgoing
edges. -/
theorem finalizeGo_point (es : List (EdgeKey × Edge)) :
    ∀ vm : String → Option Vertex,
    (∀ p ∈ es, (vm p.1.1).isSome ∧ (vm p.1.2.1).isSome) →
    ∃ vm', finalizeGo vm es = some vm'
      ∧ ∀ k, vm' k = (vm k).map (vertexDelta k es) := by
  induction es with
  | nil =>
    intro vm _
    refine ⟨vm, rfl, fun k => ?_⟩
    cases vm k with
    | none => rfl
    | some v => rw [Option.map_some', vertexDelta_nil]
  | cons p rest ih =>
    intro vm hwf
    obtain ⟨key, e⟩ := p
    obtain ⟨hf, ht⟩ := hwf (key, e) (List.mem_cons_self _ _)
    obtain ⟨vf, hvf⟩ := Option.isSome_iff_exists.mp hf
    obtain ⟨vt, hvt⟩ := Option.isSome_iff_exists.mp ht
    have hpt := finalizeEdge_point vm key e vf vt hvf hvt
    have hwf1 : ∀ q ∈ rest,
        ((fun k => (vm k).map (vertexDelta k [(key, e)])) q.1.1).isSome
        ∧ ((fun k => (vm k).map (vertexDelta k [(key, e)])) q.1.2.1).isSome := by
      intro q hq
      have hh := hwf q (List.mem_cons_of_mem _ hq)
      simpa using hh
    obtain ⟨vm', hgo, hpoint⟩ := ih (fun k => (vm k).map (vertexDelta k [(key, e)])) hwf1
    refine ⟨vm', ?_, fun k => ?_⟩
    · simp only [finalizeGo, hpt, Option.bind_eq_bind, Option.some_bind]
      exact hgo
    · rw [hpoint k]
      cases hvk : vm k with
      | none => rfl
      | some v =>
        simp only [Option.map_some', vertexDelta_cons]

/-- The §8 finalize test scenario: vertices `A`, `B`, `X`; a `"Director"`
edge `A→X` and a `"Beneficial Owner (10%)"` edge `B→X`, built through the
builder's own `vertex`/`edge` upserts. -/
def finalizeScenario : GraphState :=
  edgeOp (edgeOp (vertexOp (vertexOp (vertexOp emptyGraph "A") "B") "X")
    "A" "X" "Director") "B" "X" "Beneficial Owner (10%)"

/-- C2: in the scenario with a `"Director"`-labelled edge `A→X` and a
`"Beneficial Owner (10%)"`-labelled edge `B→X`, `finalize` leaves vertex
`X` with `is_director == 1` and `is_10percent == 1`; and in general, on any
state whose edge endpoints all exist, `finalize` classifies every edge by
its label (the edge-key `type`), accumulates the director / officer /
10%-owner counters onto the target vertex, and accumulates each edge's
`shares` onto the source vertex's `total_shares`. -/
theorem c2_finalize_classification :
    (∃ st' : GraphState,
      finalizeG finalizeScenario = some st'
      ∧ ∃ v : Vertex, st'.vertexMap "X" = some v
        ∧ v.is_director = 1 ∧ v.is_10percent = 1)
    ∧ (∀ st : GraphState,
        (∀ p ∈ st.edgeMap,
          (st.vertexMap p.1.1).isSome ∧ (st.vertexMap p.1.2.1).isSome) →
        ∃ st', finalizeG st = some st'
          ∧ ∀ k, st'.vertexMap k
              = (st.vertexMap k).map (vertexDelta k st.edgeMap)) := by
  constructor
  · exact ⟨_, rfl, _, rfl, by decide, by decide⟩
  · intro st hwf
    obtain ⟨vm', hgo, hpoint⟩ := finalizeGo_point st.edgeMap st.vertexMap hwf
    refine ⟨{ st with vertexMap := vm' }, ?_, hpoint⟩
    rw [finalizeG, hgo]
    rfl

/-- Closed instance of `c2_finalize_classification`: its general part
applied to the concrete scenario state. -/
theorem c2_witness :
    (∀ p ∈ finalizeScenario.edgeMap,
      (finalizeScenario.vertexMap p.1.1).isSome
      ∧ (finalizeScenario.vertexMap p.1.2.1).isSome)
    ∧ ∃ st', finalizeG finalizeScenario = some st'
        ∧ ∀ k, st'.vertexMap k
            = (finalizeScenario.vertexMap k).map
                (vertexDelta k finalizeScenario.edgeMap) :=
  ⟨by decide, c2_finalize_classification.2 finalizeScenario (by decide)⟩

/-! ### Depth-bound behaviour (C1) -/

theorem inst_append_ne_AAA (s : String) : ("inst-" ++ s) ≠ "AAA" := by
  intro h
  have hd := congrArg String.data h
  have : 'i' :: 'n' :: 's' :: 't' :: '-' :: s.data = ['A', 'A', 'A'] := hd
  simp at this

/-- `add_institution` on an id never seen before (and not queued): append
to `seen` and to the institution frontier. -/
theorem addInstitution_fresh (st : WalkerState) (id depth : Nat)
    (h : ("inst-" ++ toString id) ∉ st.seen)
    (h2 : alistGet st.todoInstitution id = none) :
    addInstitution st id depth =
      { st with seen := st.seen ++ ["inst-" ++ toString id],
                todoInstitution := st.todoInstitution ++ [(id, depth)] } := by
  simp only [addInstitution, if_neg h]
  rw [h2]

theorem alistDel_singleton {κ β : Type} [DecidableEq κ] (k : κ) (v : β) :
    alistDel [(k, v)] k = [] := by
  simp [alistDel]

/-- The crawl environment of the depth-bound scenario: one seed company
`"AAA"` whose holders response lists a single institution `instId` (market
value 5, i.e. $5,000), and whose institutions hold arbitrary positions
`posRows`. -/
def depthEnv (instId : Nat) (posRows : List WPositionRow) : WalkerEnv :=
  { companyProfile := fun _ => some (some ())
    stockChart := fun _ => none
    companyHolders := fun s =>
      if s = "AAA" then some (some ⟨[⟨some instId, 5⟩]⟩) else some none
    companyInsiders := fun _ => some none
    institutionPositions := fun _ => some (some ⟨posRows⟩)
    insiderPositions := fun _ => some none }

/-- C1 counterexample: seeding company `"AAA"` at depth 0 with
`max_depth_holder = 1`, where `"AAA"`'s holders response plainly lists
institution 7, the crawl ends with *no* institution enqueued or visited —
the holders response is fetched (the observer event is delivered) but the
guard `depth < max_depth_holder` inside `_follow_company_holders` sees
depth 1 and refuses to enqueue, refuting "visits every institution
discovered from that company's holders response … at depth 1". -/
theorem c1_counterexample :
    (runWalker (depthEnv 7 [⟨some "BBB", 5⟩])
        { maxDepthHolder := 1, stockCharts := false } 5
        (addCompany initWalker "AAA" 0)).numInstitutions = 0
    ∧ (runWalker (depthEnv 7 [⟨some "BBB", 5⟩])
        { maxDepthHolder := 1, stockCharts := false } 5
        (addCompany initWalker "AAA" 0)).visitedInstitutions = []
    ∧ (runWalker (depthEnv 7 [⟨some "BBB", 5⟩])
        { maxDepthHolder := 1, stockCharts := false } 5
        (addCompany initWalker "AAA" 0)).todoInstitution = []
    ∧ holdersRows (some ⟨[⟨some 7, 5⟩]⟩) = [⟨some 7, 5⟩]
    ∧ (runWalker (depthEnv 7 [⟨some "BBB", 5⟩])
        { maxDepthHolder := 1, stockCharts := false } 5
        (addCompany initWalker "AAA" 0)).events
      = [.onCompanyProfile "AAA" (some ()),
         .onCompanyHolders "AAA" (some ⟨[⟨some 7, 5⟩]⟩)] := by
  decide

/-- C1 (amended): with `max_depth_holder = 2`, the institution discovered
from the depth-0 seed company's holders response is enqueued (at depth 2,
the depth argument being incremented both on entering
`_follow_company_holders` and inside `add_institution`) and
dequeued/visited, and no company is ever enqueued from it — its positions
are not even fetched, whatever positions `posRows` the provider holds for
it — so the crawl visits exactly the seed company and that institution and
delivers exactly their two observer events. -/
theorem c1_depth_bound (posRows : List WPositionRow) :
    (runWalker (depthEnv 7 posRows)
        { maxDepthHolder := 2, stockCharts := false } 5
        (addCompany initWalker "AAA" 0)).visitedInstitutions = [7]
    ∧ (runWalker (depthEnv 7 posRows)
        { maxDepthHolder := 2, stockCharts := false } 5
        (addCompany initWalker "AAA" 0)).visitedCompanies = ["AAA"]
    ∧ (runWalker (depthEnv 7 posRows)
        { maxDepthHolder := 2, stockCharts := false } 5
        (addCompany initWalker "AAA" 0)).numCompanies = 1
    ∧ (runWalker (depthEnv 7 posRows)
        { maxDepthHolder := 2, stockCharts := false } 5
        (addCompany initWalker "AAA" 0)).todoCompany = []
    ∧ (runWalker (depthEnv 7 posRows)
        { maxDepthHolder := 2, stockCharts := false } 5
        (addCompany initWalker "AAA" 0)).todoInstitution = []
    ∧ (runWalker (depthEnv 7 posRows)
        { maxDepthHolder := 2, stockCharts := false } 5
        (addCompany initWalker "AAA" 0)).events
      = [.onCompanyProfile "AAA" (some ()),
         .onCompanyHolders "AAA" (some ⟨[⟨some 7, 5⟩]⟩)] :=
  ⟨rfl, rfl, rfl, rfl, rfl, rfl⟩

/-! ### Null payloads (C6) -/

/-- C6: when the cache returns a response whose payload (`"data"` field) is
null, the walker still invokes the corresponding observer callback, handing
it the null payload, and changes nothing else — in particular no frontier
entry is enqueued from that entity and no error is raised (the step is a
total function of the state).  This holds for each of the four
expansion-driving fetches. -/
theorem c6_null_payload (env : WalkerEnv) (cfg : WalkerConfig) (st : WalkerState) :
    (∀ (symbol : String) (depth : Nat), env.companyHolders symbol = some none →
      followCompanyHolders env cfg st symbol depth
        = { st with events := st.events ++ [.onCompanyHolders symbol none] })
    ∧ (∀ (symbol : String) (depth : Nat), env.companyInsiders symbol = some none →
      followCompanyInsiders env cfg st symbol depth
        = { st with events := st.events ++ [.onCompanyInsiders symbol none] })
    ∧ (∀ (id depth : Nat), env.institutionPositions id = some none →
      followInstitutionPositions env cfg st id depth
        = { st with events := st.events ++ [.onInstitutionPositions id none] })
    ∧ (∀ (id depth : Nat), env.insiderPositions id = some none →
      followInsiderPositions env cfg st id depth
        = { st with events := st.events ++ [.onInsiderPositions id none] }) := by
  refine ⟨fun symbol depth h => ?_, fun symbol depth h => ?_,
    fun id depth h => ?_, fun id depth h => ?_⟩
  · simp [followCompanyHolders, h, holdersRows]
  · simp [followCompanyInsiders, h, insidersRows]
  · simp [followInstitutionPositions, h, positionsRows]
  · simp [followInsiderPositions, h, insPosRows]

/-- An environment where every key has a null payload. -/
def nullEnv : WalkerEnv :=
  { companyProfile := fun _ => some none
    stockChart := fun _ => some none
    companyHolders := fun _ => some none
    companyInsiders := fun _ => some none
    institutionPositions := fun _ => some none
    insiderPositions := fun _ => some none }

/-- Closed instance of `c6_null_payload`. -/
theorem c6_witness :
    followCompanyHolders nullEnv {} initWalker "AAA" 1
      = { initWalker with events := initWalker.events ++ [.onCompanyHolders "AAA" none] }
    ∧ followInsiderPositions nullEnv {} initWalker 5 1
      = { initWalker with events := initWalker.events ++ [.onInsiderPositions 5 none] } :=
  ⟨(c6_null_payload nullEnv {} initWalker).1 "AAA" 1 rfl,
   (c6_null_payload nullEnv {} initWalker).2.2.2 5 1 rfl⟩

/-! ### The no-revisit discipline (C5) -/

theorem alistGet_some_mem {κ β : Type} [DecidableEq κ]
    (l : List (κ × β)) (k : κ) (v : β) (h : alistGet l k = some v) :
    k ∈ l.map Prod.fst := by
  induction l with
  | nil => exact absurd h (by simp [alistGet])
  | cons p rest ih =>
    obtain ⟨k', v'⟩ := p
    simp only [alistGet] at h
    by_cases hk : k' = k
    · simp [hk]
    · rw [if_neg hk] at h
      simp [ih h]

theorem alistDel_fst_sublist {κ β : Type} [DecidableEq κ] (l : List (κ × β)) (k : κ) :
    ((alistDel l k).map Prod.fst).Sublist (l.map Prod.fst) := by
  induction l with
  | nil => simp [alistDel]
  | cons p rest ih =>
    obtain ⟨k', v'⟩ := p
    simp only [alistDel]
    by_cases hk : k' = k
    · rw [if_pos hk]
      simp only [List.map_cons]
      exact (List.sublist_cons_self _ _)
    · rw [if_neg hk]
      simp only [List.map_cons]
      exact List.Sublist.cons₂ _ ih

theorem not_mem_alistDel_fst {κ β : Type} [DecidableEq κ] (l : List (κ × β)) (k : κ)
    (hnd : (l.map Prod.fst).Nodup) : k ∉ (alistDel l k).map Prod.fst := by
  induction l with
  | nil => simp [alistDel]
  | cons p rest ih =>
    obtain ⟨k', v'⟩ := p
    simp only [List.map_cons, List.nodup_cons] at hnd
    simp only [alistDel]
    by_cases hk : k' = k
    · rw [if_pos hk]
      subst hk
      exact hnd.1
    · rw [if_neg hk]
      simp only [List.map_cons, List.mem_cons]
      rintro (h | h)
      · exact hk h.symm
      · exact ih hnd.2 h

theorem minByKey_mem {κ : Type} (f : κ → String) (e : κ × Nat) (es : List (κ × Nat)) :
    minByKey f e es ∈ e :: es := by
  rw [minByKey]
  induction es generalizing e with
  | nil => simp
  | cons p rest ih =>
    simp only [List.foldl_cons]
    by_cases hc : pyStrLt (f p.1) (f e.1) = true
    · rw [if_pos hc]
      have := ih p
      simp only [List.mem_cons] at this ⊢
      tauto
    · rw [if_neg hc]
      have := ih e
      simp only [List.mem_cons] at this ⊢
      tauto

/-- The entry `_next_unsorted` picks is one of the frontier entries. -/
theorem nextUnsorted_mem {κ : Type} (sortOrder : Option String) (toStr : κ → String)
    (l : List (κ × Nat)) (e : κ × Nat) (h : nextUnsorted sortOrder toStr l = some e) :
    e ∈ l := by
  cases l with
  | nil => exact absurd h (by simp [nextUnsorted])
  | cons p rest =>
    simp only [nextUnsorted, Option.some.injEq] at h
    subst h
    cases sortOrder with
    | none => simp
    | some seed =>
      by_cases hs : seed = ""
      · simp [hs]
      · simp only [if_neg hs]
        exact minByKey_mem _ p rest

theorem foldl_preserve {α β : Type} (P : α → Prop) (f : α → β → α) (l : List β)
    (hstep : ∀ a b, P a → P (f a b)) : ∀ a, P a → P (List.foldl f a l) := by
  induction l with
  | nil => intro a h; exact h
  | cons b rest ih =>
    intro a h
    exact ih (f a b) (hstep a b h)

/-- The per-kind frontier/visited discipline: visited keys are pairwise
distinct, queued keys are pairwise distinct, every visited or queued key
has its seen-tag in `seen`, and no key is both visited and queued. -/
def KindInv {κ : Type} (visited : List κ) (todo : List (κ × Nat)) (seen : List String)
    (tag : κ → String) : Prop :=
  visited.Nodup
  ∧ (todo.map Prod.fst).Nodup
  ∧ (∀ k ∈ visited, tag k ∈ seen)
  ∧ (∀ k ∈ todo.map Prod.fst, tag k ∈ seen)
  ∧ (∀ k ∈ visited, k ∉ todo.map Prod.fst)

/-- Growing `seen` preserves a kind's discipline. -/
theorem KindInv.mono_seen {κ : Type} {visited : List κ} {todo : List (κ × Nat)}
    {seen : List String} {tag : κ → String} (extra : List String)
    (h : KindInv visited todo seen tag) :
    KindInv visited todo (seen ++ extra) tag := by
  obtain ⟨h1, h2, h3, h4, h5⟩ := h
  exact ⟨h1, h2, fun k hk => List.mem_append_left _ (h3 k hk),
    fun k hk => List.mem_append_left _ (h4 k hk), h5⟩

/-- Enqueueing a fresh key (tag not yet seen) preserves the discipline. -/
theorem KindInv.enqueue {κ : Type} {visited : List κ} {todo : List (κ × Nat)}
    {seen : List String} {tag : κ → String} (k : κ) (d : Nat)
    (hfresh : tag k ∉ seen) (h : KindInv visited todo seen tag) :
    KindInv visited (todo ++ [(k, d)]) (seen ++ [tag k]) tag := by
  obtain ⟨h1, h2, h3, h4, h5⟩ := h
  have hknot : k ∉ todo.map Prod.fst := fun hk => hfresh (h4 k hk)
  refine ⟨h1, ?_, fun j hj => List.mem_append_left _ (h3 j hj), ?_, ?_⟩
  · rw [List.map_append]
    simp only [List.map_cons, List.map_nil]
    exact List.Nodup.append h2 (List.nodup_singleton k) (by simpa using hknot)
  · intro j hj
    rw [List.map_append] at hj
    rcases List.mem_append.mp hj with hj | hj
    · exact List.mem_append_left _ (h4 j hj)
    · simp only [List.map_cons, List.map_nil, List.mem_singleton] at hj
      subst hj
      simp
  · intro j hj
    rw [List.map_append]
    intro hmem
    rcases List.mem_append.mp hmem with hm | hm
    · exact h5 j hj hm
    · simp only [List.map_cons, List.map_nil, List.mem_singleton] at hm
      subst hm
      exact hfresh (h3 j hj)

/-- Dequeueing a queued entry into `visited` preserves the discipline. -/
theorem KindInv.dequeue {κ : Type} [DecidableEq κ] {visited : List κ}
    {todo : List (κ × Nat)} {seen : List String} {tag : κ → String}
    (e : κ × Nat) (he : e ∈ todo) (h : KindInv visited todo seen tag) :
    KindInv (visited ++ [e.1]) (alistDel todo e.1) seen tag := by
  obtain ⟨h1, h2, h3, h4, h5⟩ := h
  have hkeys : e.1 ∈ todo.map Prod.fst := List.mem_map_of_mem Prod.fst he
  have hsub := alistDel_fst_sublist todo e.1
  refine ⟨?_, hsub.nodup h2, ?_, fun j hj => h4 j (hsub.mem hj), ?_⟩
  · refine List.Nodup.append h1 (List.nodup_singleton _) ?_
    intro x hx hx'
    simp only [List.mem_singleton] at hx'
    subst hx'
    exact h5 _ hx hkeys
  · intro j hj
    rcases List.mem_append.mp hj with hj | hj
    · exact h3 j hj
    · simp only [List.mem_singleton] at hj
      subst hj
      exact h4 _ hkeys
  · intro j hj
    rcases List.mem_append.mp hj with hj | hj
    · exact fun hm => h5 j hj (hsub.mem hm)
    · simp only [List.mem_singleton] at hj
      subst hj
      exact not_mem_alistDel_fst todo e.1 h2

/-- The full walker invariant: all three kinds keep the discipline and each
visited counter equals its visit-list length. -/
def WalkerInv (st : WalkerState) : Prop :=
  KindInv st.visitedCompanies st.todoCompany st.seen (fun s => s)
  ∧ KindInv st.visitedInstitutions st.todoInstitution st.seen
      (fun i => "inst-" ++ toString i)
  ∧ KindInv st.visitedInsiders st.todoInsiders st.seen
      (fun i => "insi-" ++ toString i)
  ∧ st.numCompanies = st.visitedCompanies.length
  ∧ st.numInstitutions = st.visitedInstitutions.length
  ∧ st.numInsiders = st.visitedInsiders.length

/-- `add_company` on an already-seen upper-cased symbol only counts a
duplicate. -/
theorem addCompany_seen (st : WalkerState) (symbol : String) (depth : Nat)
    (h : strUpper symbol ∈ st.seen) :
    addCompany st symbol depth
      = { st with numDuplicateCompanies := st.numDuplicateCompanies + 1 } := by
  simp only [addCompany, if_pos h]

/-- `add_company` on a fresh symbol: mark seen, enqueue at the given depth. -/
theorem addCompany_fresh (st : WalkerState) (symbol : String) (depth : Nat)
    (h : strUpper symbol ∉ st.seen)
    (h2 : alistGet st.todoCompany (strUpper symbol) = none) :
    addCompany st symbol depth
      = { st with seen := st.seen ++ [strUpper symbol],
                  todoCompany := st.todoCompany ++ [(strUpper symbol, depth)] } := by
  simp only [addCompany, if_neg h]
  rw [h2]

theorem addInstitution_seen (st : WalkerState) (id depth : Nat)
    (h : ("inst-" ++ toString id) ∈ st.seen) :
    addInstitution st id depth
      = { st with numDuplicateInstitutions := st.numDuplicateInstitutions + 1 } := by
  simp only [addInstitution, if_pos h]

theorem addInsider_seen (st : WalkerState) (id depth : Nat)
    (h : ("insi-" ++ toString id) ∈ st.seen) :
    addInsider st id depth
      = { st with numDuplicateInsiders := st.numDuplicateInsiders + 1 } := by
  simp only [addInsider, if_pos h]

theorem addInsider_fresh (st : WalkerState) (id depth : Nat)
    (h : ("insi-" ++ toString id) ∉ st.seen)
    (h2 : alistGet st.todoInsiders id = none) :
    addInsider st id depth =
      { st with seen := st.seen ++ ["insi-" ++ toString id],
                todoInsiders := st.todoInsiders ++ [(id, depth)] } := by
  simp only [addInsider, if_neg h]
  rw [h2]

theorem addCompany_inv (st : WalkerState) (symbol : String) (depth : Nat)
    (h : WalkerInv st) : WalkerInv (addCompany st symbol depth) := by
  obtain ⟨hc, hi, hn, e1, e2, e3⟩ := h
  by_cases hseen : strUpper symbol ∈ st.seen
  · rw [addCompany_seen st symbol depth hseen]
    exact ⟨hc, hi, hn, e1, e2, e3⟩
  · have hget : alistGet st.todoCompany (strUpper symbol) = none := by
      apply alistGet_none_of_not_mem
      intro hmem
      exact hseen (hc.2.2.2.1 _ hmem)
    rw [addCompany_fresh st symbol depth hseen hget]
    exact ⟨hc.enqueue (strUpper symbol) depth hseen, hi.mono_seen _, hn.mono_seen _,
      e1, e2, e3⟩

theorem addInstitution_inv (st : WalkerState) (id depth : Nat)
    (h : WalkerInv st) : WalkerInv (addInstitution st id depth) := by
  obtain ⟨hc, hi, hn, e1, e2, e3⟩ := h
  by_cases hseen : ("inst-" ++ toString id) ∈ st.seen
  · rw [addInstitution_seen st id depth hseen]
    exact ⟨hc, hi, hn, e1, e2, e3⟩
  · have hget : alistGet st.todoInstitution id = none := by
      apply alistGet_none_of_not_mem
      intro hmem
      exact hseen (hi.2.2.2.1 _ hmem)
    rw [addInstitution_fresh st id depth hseen hget]
    exact ⟨hc.mono_seen _, hi.enqueue id depth hseen, hn.mono_seen _, e1, e2, e3⟩

theorem addInsider_inv (st : WalkerState) (id depth : Nat)
    (h : WalkerInv st) : WalkerInv (addInsider st id depth) := by
  obtain ⟨hc, hi, hn, e1, e2, e3⟩ := h
  by_cases hseen : ("insi-" ++ toString id) ∈ st.seen
  · rw [addInsider_seen st id depth hseen]
    exact ⟨hc, hi, hn, e1, e2, e3⟩
  · have hget : alistGet st.todoInsiders id = none := by
      apply alistGet_none_of_not_mem
      intro hmem
      exact hseen (hn.2.2.2.1 _ hmem)
    rw [addInsider_fresh st id depth hseen hget]
    exact ⟨hc.mono_seen _, hi.mono_seen _, hn.enqueue id depth hseen, e1, e2, e3⟩

theorem followCompanyHolders_inv (env : WalkerEnv) (cfg : WalkerConfig)
    (st : WalkerState) (symbol : String) (depth : Nat) (h : WalkerInv st) :
    WalkerInv (followCompanyHolders env cfg st symbol depth) := by
  rw [followCompanyHolders]
  cases henv : env.companyHolders symbol with
  | none => exact h
  | some data =>
    have h' : WalkerInv
        { st with events := st.events ++ [.onCompanyHolders symbol data] } := h
    dsimp only
    split
    · refine foldl_preserve WalkerInv _ _ (fun a b ha => ?_) _ h'
      cases b.url with
      | none => exact ha
      | some instId =>
        dsimp only
        split
        · exact addInstitution_inv _ _ _ ha
        · exact ha
    · exact h'

theorem followCompanyInsiders_inv (env : WalkerEnv) (cfg : WalkerConfig)
    (st : WalkerState) (symbol : String) (depth : Nat) (h : WalkerInv st) :
    WalkerInv (followCompanyInsiders env cfg st symbol depth) := by
  rw [followCompanyInsiders]
  cases henv : env.companyInsiders symbol with
  | none => exact h
  | some data =>
    have h' : WalkerInv
        { st with events := st.events ++ [.onCompanyInsiders symbol data] } := h
    dsimp only
    split
    · refine foldl_preserve WalkerInv _ _ (fun a b ha => ?_) _ h'
      cases b.url with
      | none => exact ha
      | some insId => exact addInsider_inv _ _ _ ha
    · exact h'

theorem followInstitutionPositions_inv (env : WalkerEnv) (cfg : WalkerConfig)
    (st : WalkerState) (id depth : Nat) (h : WalkerInv st) :
    WalkerInv (followInstitutionPositions env cfg st id depth) := by
  rw [followInstitutionPositions]
  cases henv : env.institutionPositions id with
  | none => exact h
  | some data =>
    have h' : WalkerInv
        { st with events := st.events ++ [.onInstitutionPositions id data] } := h
    dsimp only
    split
    · refine foldl_preserve WalkerInv _ _ (fun a b ha => ?_) _ h'
      cases b.url with
      | none => exact ha
      | some symbol =>
        dsimp only
        split
        · exact addCompany_inv _ _ _ ha
        · exact ha
    · exact h'

theorem followInsiderPositions_inv (env : WalkerEnv) (cfg : WalkerConfig)
    (st : WalkerState) (id depth : Nat) (h : WalkerInv st) :
    WalkerInv (followInsiderPositions env cfg st id depth) := by
  rw [followInsiderPositions]
  cases henv : env.insiderPositions id with
  | none => exact h
  | some data =>
    cases data with
    | none =>
      have h' : WalkerInv
          { st with events := st.events ++ [.onInsiderPositions id none] } := h
      dsimp only [insPosRows]
      split
      · exact h'
      · exact h'
    | some d =>
      have h' : WalkerInv
          { st with events := st.events ++ [.onInsiderPositions id (some d)] } := h
      have hrows : ∀ st' : WalkerState, WalkerInv st' →
          WalkerInv (d.rows.foldl (fun st row =>
            match row.url with
            | none => st
            | some symbol => addCompany st symbol (depth + 1)) st') := by
        intro st' hst'
        refine foldl_preserve WalkerInv _ _ (fun a b ha => ?_) _ hst'
        cases b.url with
        | none => exact ha
        | some symbol => exact addCompany_inv _ _ _ ha
      dsimp only [insPosRows]
      split
      · split
        · refine foldl_preserve WalkerInv _ _ (fun a b ha => ?_) _ (hrows _ h')
          cases b with
          | none => exact ha
          | some insId => exact addInsider_inv _ _ _ ha
        · exact hrows _ h'
      · exact h'

theorem stockChartStep_inv (env : WalkerEnv) (cfg : WalkerConfig)
    (st : WalkerState) (symbol : String) (h : WalkerInv st) :
    WalkerInv (stockChartStep env cfg st symbol) := by
  rw [stockChartStep]
  split
  · split
    · exact h
    · exact h
  · exact h

theorem followCompany_inv (env : WalkerEnv) (cfg : WalkerConfig) (st : WalkerState)
    (h : WalkerInv st) : WalkerInv (followCompany env cfg st) := by
  rw [followCompany]
  cases hpick : nextUnsorted cfg.sortOrder (fun s => s) st.todoCompany with
  | none => exact h
  | some e =>
    obtain ⟨symbol, depth⟩ := e
    have hmem := nextUnsorted_mem _ _ _ _ hpick
    obtain ⟨hc, hi, hn, e1, e2, e3⟩ := h
    have h1 : WalkerInv
        { st with todoCompany := alistDel st.todoCompany symbol,
                  numCompanies := st.numCompanies + 1,
                  visitedCompanies := st.visitedCompanies ++ [symbol] } := by
      refine ⟨hc.dequeue (symbol, depth) hmem, hi, hn, ?_, e2, e3⟩
      simp [e1]
    dsimp only
    cases henv : env.companyProfile symbol with
    | none => exact h1
    | some pd =>
      dsimp only
      split
      · exact followCompanyInsiders_inv _ _ _ _ _ (by
          split
          · exact followCompanyHolders_inv _ _ _ _ _
              (stockChartStep_inv env cfg _ symbol h1)
          · exact stockChartStep_inv env cfg _ symbol h1)
      · split
        · exact followCompanyHolders_inv _ _ _ _ _
            (stockChartStep_inv env cfg _ symbol h1)
        · exact stockChartStep_inv env cfg _ symbol h1

theorem followInstitution_inv (env : WalkerEnv) (cfg : WalkerConfig) (st : WalkerState)
    (h : WalkerInv st) : WalkerInv (followInstitution env cfg st) := by
  rw [followInstitution]
  cases hpick : nextUnsorted cfg.sortOrder toString st.todoInstitution with
  | none => exact h
  | some e =>
    obtain ⟨id, depth⟩ := e
    have hmem := nextUnsorted_mem _ _ _ _ hpick
    obtain ⟨hc, hi, hn, e1, e2, e3⟩ := h
    have h1 : WalkerInv
        { st with todoInstitution := alistDel st.todoInstitution id,
                  numInstitutions := st.numInstitutions + 1,
                  visitedInstitutions := st.visitedInstitutions ++ [id] } := by
      refine ⟨hc, hi.dequeue (id, depth) hmem, hn, e1, ?_, e3⟩
      simp [e2]
    dsimp only
    split
    · exact followInstitutionPositions_inv _ _ _ _ _ h1
    · exact h1

theorem followInsider_inv (env : WalkerEnv) (cfg : WalkerConfig) (st : WalkerState)
    (h : WalkerInv st) : WalkerInv (followInsider env cfg st) := by
  rw [followInsider]
  cases hpick : nextUnsorted cfg.sortOrder toString st.todoInsiders with
  | none => exact h
  | some e =>
    obtain ⟨id, depth⟩ := e
    have hmem := nextUnsorted_mem _ _ _ _ hpick
    obtain ⟨hc, hi, hn, e1, e2, e3⟩ := h
    have h1 : WalkerInv
        { st with todoInsiders := alistDel st.todoInsiders id,
                  numInsiders := st.numInsiders + 1,
                  visitedInsiders := st.visitedInsiders ++ [id] } := by
      refine ⟨hc, hi, hn.dequeue (id, depth) hmem, e1, e2, ?_⟩
      simp [e3]
    dsimp only
    split
    · exact followInsiderPositions_inv _ _ _ _ _ h1
    · exact h1

theorem runWalker_inv (env : WalkerEnv) (cfg : WalkerConfig) (fuel : Nat)
    (st : WalkerState) (h : WalkerInv st) : WalkerInv (runWalker env cfg fuel st) := by
  induction fuel generalizing st with
  | zero => exact h
  | succ f ih =>
    rw [runWalker]
    split
    · exact h
    · exact ih _ (followInsider_inv env cfg _
        (followInstitution_inv env cfg _ (followCompany_inv env cfg _ h)))

/-- C5: a key discovered a second time is never re-queued.  (i)–(iii): a
rediscovery of an already-seen key, at any depth (shallower included),
changes nothing except the per-kind duplicate counter.  (iv): a fresh key
transitions Unseen → Queued: it is marked seen and appended to its
frontier.  (v): the empty initial state satisfies the walker invariant, and
(vi): the invariant is preserved by any run — so along every crawl the
visited lists stay duplicate-free (each key moves Queued → Visited at most
once) and each per-kind visited counter equals the number of distinct keys
visited. -/
instance walkerInvDecidable (st : WalkerState) : Decidable (WalkerInv st) := by
  unfold WalkerInv KindInv
  infer_instance

theorem c5_no_revisit :
    (∀ (st : WalkerState) (symbol : String) (depth : Nat),
      strUpper symbol ∈ st.seen →
      addCompany st symbol depth
        = { st with numDuplicateCompanies := st.numDuplicateCompanies + 1 })
    ∧ (∀ (st : WalkerState) (id depth : Nat),
      ("inst-" ++ toString id) ∈ st.seen →
      addInstitution st id depth
        = { st with numDuplicateInstitutions := st.numDuplicateInstitutions + 1 })
    ∧ (∀ (st : WalkerState) (id depth : Nat),
      ("insi-" ++ toString id) ∈ st.seen →
      addInsider st id depth
        = { st with numDuplicateInsiders := st.numDuplicateInsiders + 1 })
    ∧ (∀ (st : WalkerState) (symbol : String) (depth : Nat),
      WalkerInv st → strUpper symbol ∉ st.seen →
      addCompany st symbol depth
        = { st with seen := st.seen ++ [strUpper symbol],
                    todoCompany := st.todoCompany ++ [(strUpper symbol, depth)] })
    ∧ WalkerInv initWalker
    ∧ (∀ (env : WalkerEnv) (cfg : WalkerConfig) (fuel : Nat) (st : WalkerState),
      WalkerInv st → WalkerInv (runWalker env cfg fuel st)) := by
  refine ⟨addCompany_seen, addInstitution_seen, addInsider_seen,
    fun st symbol depth hinv hfresh => ?_, ?_, runWalker_inv⟩
  · refine addCompany_fresh st symbol depth hfresh ?_
    apply alistGet_none_of_not_mem
    intro hmem
    exact hfresh (hinv.1.2.2.2.1 _ hmem)
  · decide

/-- Closed instance of `c5_no_revisit`: rediscovering `"AAA"` (first queued
at depth 0) at the shallower depth 0-versus-3 situation only bumps the
duplicate counter, and a 3-round crawl of a concrete environment from a
seeded state keeps the invariant. -/
theorem c5_witness :
    (strUpper "AAA" ∈ (addCompany initWalker "AAA" 0).seen
      ∧ addCompany (addCompany initWalker "AAA" 0) "AAA" 3
        = { (addCompany initWalker "AAA" 0) with
            numDuplicateCompanies
              := (addCompany initWalker "AAA" 0).numDuplicateCompanies + 1 })
    ∧ (WalkerInv (addCompany initWalker "AAA" 0)
      ∧ WalkerInv (runWalker nullEnv {} 3 (addCompany initWalker "AAA" 0))) :=
  ⟨⟨by decide, c5_no_revisit.1 (addCompany initWalker "AAA" 0) "AAA" 3 (by decide)⟩,
   ⟨by decide, c5_no_revisit.2.2.2.2.2 nullEnv {} 3 (addCompany initWalker "AAA" 0)
      (by decide)⟩⟩

/-! ### Deterministic shuffle order (C9) -/

theorem charListLt_irrefl (l : List Char) : charListLt l l = false := by
  induction l with
  | nil => rfl
  | cons c cs ih => simp [charListLt, ih]

theorem charListLt_trans {a b c : List Char} (h1 : charListLt a b = true)
    (h2 : charListLt b c = true) : charListLt a c = true := by
  induction a generalizing b c with
  | nil =>
    cases b with
    | nil => exact absurd h1 (by simp [charListLt])
    | cons bh bt =>
      cases c with
      | nil => exact absurd h2 (by simp [charListLt])
      | cons ch ct => simp [charListLt]
  | cons ah at' ih =>
    cases b with
    | nil => exact absurd h1 (by simp [charListLt])
    | cons bh bt =>
      cases c with
      | nil => exact absurd h2 (by simp [charListLt])
      | cons ch ct =>
        simp only [charListLt] at h1 h2 ⊢
        by_cases x1 : ah.toNat < bh.toNat <;>
          by_cases x2 : bh.toNat < ah.toNat <;>
          by_cases x3 : bh.toNat < ch.toNat <;>
          by_cases x4 : ch.toNat < bh.toNat <;>
          simp only [x1, x2, x3, x4, if_true, if_false, if_pos, if_neg,
            not_false_iff] at h1 h2 ⊢ <;>
          first
            | omega
            | (rw [if_pos (by omega : ah.toNat < ch.toNat)])
            | (rw [if_neg (by omega : ¬ ah.toNat < ch.toNat),
                   if_neg (by omega : ¬ ch.toNat < ah.toNat)]
               exact ih h1 h2)
            | rfl
            | simp at h1
            | simp at h2

theorem charListLt_false_trans {a b c : List Char} (h1 : charListLt a b = false)
    (h2 : charListLt b c = false) : charListLt a c = false := by
  induction a generalizing b c with
  | nil =>
    cases b with
    | nil =>
      cases c with
      | nil => rfl
      | cons ch ct => exact absurd h2 (by simp [charListLt])
    | cons bh bt => exact absurd h1 (by simp [charListLt])
  | cons ah at' ih =>
    cases b with
    | nil =>
      cases c with
      | nil => rfl
      | cons ch ct => exact absurd h2 (by simp [charListLt])
    | cons bh bt =>
      cases c with
      | nil => rfl
      | cons ch ct =>
        simp only [charListLt] at h1 h2 ⊢
        by_cases x1 : ah.toNat < bh.toNat <;>
          by_cases x2 : bh.toNat < ah.toNat <;>
          by_cases x3 : bh.toNat < ch.toNat <;>
          by_cases x4 : ch.toNat < bh.toNat <;>
          simp only [x1, x2, x3, x4, if_true, if_false, if_pos, if_neg,
            not_false_iff] at h1 h2 ⊢ <;>
          first
            | omega
            | (rw [if_neg (by omega : ¬ ah.toNat < ch.toNat),
                   if_pos (by omega : ch.toNat < ah.toNat)])
            | (rw [if_neg (by omega : ¬ ah.toNat < ch.toNat),
                   if_neg (by omega : ¬ ch.toNat < ah.toNat)]
               exact ih h1 h2)
            | rfl
            | simp at h1
            | simp at h2

theorem pyStrLt_trans {a b c : String} (h1 : pyStrLt a b = true)
    (h2 : pyStrLt b c = true) : pyStrLt a c = true :=
  charListLt_trans h1 h2

theorem pyStrLt_false_trans {a b c : String} (h1 : pyStrLt a b = false)
    (h2 : pyStrLt b c = false) : pyStrLt a c = false :=
  charListLt_false_trans h1 h2

theorem pyStrLt_irrefl (s : String) : pyStrLt s s = false :=
  charListLt_irrefl s.data

/-- The folded pick of `minByKey` hashes no higher than any list entry. -/
theorem minByKey_min {κ : Type} (f : κ → String) (e : κ × Nat) (es : List (κ × Nat)) :
    ∀ q ∈ e :: es, pyStrLt (f q.1) (f (minByKey f e es).1) = false := by
  induction es generalizing e with
  | nil =>
    intro q hq
    simp only [List.mem_singleton] at hq
    subst hq
    exact pyStrLt_irrefl _
  | cons p rest ih =>
    intro q hq
    have hstep : minByKey f e (p :: rest)
        = minByKey f (if pyStrLt (f p.1) (f e.1) = true then p else e) rest := by
      rw [minByKey, minByKey, List.foldl_cons]
    rw [hstep]
    have hhead := ih (if pyStrLt (f p.1) (f e.1) = true then p else e) _
      (List.mem_cons_self _ _)
    rcases List.mem_cons.mp hq with hqe | hq'
    · rw [hqe]
      by_cases hc : pyStrLt (f p.1) (f e.1) = true
      · rw [if_pos hc] at hhead ⊢
        cases hlt : pyStrLt (f e.1) (f (minByKey f p rest).1) with
        | false => rfl
        | true =>
          have htr := pyStrLt_trans hc hlt
          rw [hhead] at htr
          simp at htr
      · rw [if_neg hc] at hhead ⊢
        exact hhead
    · rcases List.mem_cons.mp hq' with hqp | hqrest
      · rw [hqp]
        by_cases hc : pyStrLt (f p.1) (f e.1) = true
        · rw [if_pos hc] at hhead ⊢
          exact hhead
        · rw [if_neg hc] at hhead ⊢
          exact pyStrLt_false_trans (Bool.eq_false_iff.mpr hc) hhead
      · exact ih _ q (List.mem_cons_of_mem _ hqrest)

/-- C9 (amended): with a non-empty shuffle seed configured, the key a
frontier pick returns is always a member of the frontier whose
`sha256(f"{key}{seed}").hexdigest()` is lexicographically smallest (no
frontier key hashes strictly below it), and the whole crawl is a
deterministic function of the environment, configuration (seed included)
and seeded state — so two crawls with the same seed visit entities in the
same order.  Crawls with different seed strings may differ in order *and*
(because first-discovery depth governs expansion) in the final visited set
(see the counterexample). -/
theorem c9_deterministic_order :
    (∀ (κ : Type) (toStr : κ → String) (seed : String) (l : List (κ × Nat))
      (e : κ × Nat), seed ≠ "" → nextUnsorted (some seed) toStr l = some e →
      e ∈ l ∧ ∀ q ∈ l,
        pyStrLt (unsortedSortKey seed (toStr q.1))
          (unsortedSortKey seed (toStr e.1)) = false)
    ∧ (∀ (env₁ env₂ : WalkerEnv) (cfg₁ cfg₂ : WalkerConfig) (fuel : Nat)
      (st₁ st₂ : WalkerState), env₁ = env₂ → cfg₁ = cfg₂ → st₁ = st₂ →
      runWalker env₁ cfg₁ fuel st₁ = runWalker env₂ cfg₂ fuel st₂) := by
  constructor
  · intro κ toStr seed l e hseed hpick
    refine ⟨nextUnsorted_mem _ _ _ _ hpick, ?_⟩
    cases l with
    | nil => exact absurd hpick (by simp [nextUnsorted])
    | cons p rest =>
      simp only [nextUnsorted, if_neg hseed, Option.some.injEq] at hpick
      intro q hq
      rw [← hpick]
      exact minByKey_min (fun x => unsortedSortKey seed (toStr x)) p rest q hq
  · intro env₁ env₂ cfg₁ cfg₂ fuel st₁ st₂ he hc hs
    rw [he, hc, hs]

/-- Closed instance of `c9_deterministic_order`: the pick from the
institution frontier `[2, 7]` under seed `"a"`. -/
theorem c9_witness :
    ("a" : String) ≠ ""
    ∧ nextUnsorted (some "a") toString [((2 : Nat), 0), (7, 2)] = some (2, 0)
    ∧ ((2, 0) ∈ [((2 : Nat), 0), (7, 2)]
      ∧ ∀ q ∈ [((2 : Nat), 0), (7, 2)],
          pyStrLt (unsortedSortKey "a" (toString q.1))
            (unsortedSortKey "a" (toString (2 : Nat))) = false) :=
  ⟨by decide, by decide,
   c9_deterministic_order.1 Nat toString "a" [(2, 0), (7, 2)] (2, 0)
     (by decide) (by decide)⟩

/-- The crawl environment of the C9 counterexample: seed company `"AAA"`
(holding institution 7) and seed institution 2; both institutions' position
lists point at company `"BBB"`, whose holders list institution 9. -/
def env9 : WalkerEnv :=
  { companyProfile := fun _ => some (some ())
    stockChart := fun _ => none
    companyHolders := fun s =>
      if s = "AAA" then some (some ⟨[⟨some 7, 5⟩]⟩)
      else if s = "BBB" then some (some ⟨[⟨some 9, 5⟩]⟩)
      else some none
    companyInsiders := fun _ => some none
    institutionPositions := fun i =>
      if i = 2 ∨ i = 7 then some (some ⟨[⟨some "BBB", 5⟩]⟩) else some none
    insiderPositions := fun _ => some none }

def cfg9 (s : String) : WalkerConfig :=
  { maxDepthHolder := 4, stockCharts := false, followInsiders := false,
    sortOrder := some s }

def st9 : WalkerState := addInstitution (addCompany initWalker "AAA" 0) 2 0

/-- C9 counterexample: the same crawl run with shuffle seeds `"a"` and
`"b"` (same seed entities, same provider data) visits different *sets* of
entities: under `"a"` institution 2 is picked first, company `"BBB"` is
discovered at depth 2 and expanded, so institution 9 is visited; under
`"b"` institution 7 is picked first, `"BBB"` is first discovered at depth
4 and never expanded, so institution 9 is never seen — refuting "two
crawls with different seed strings … visit the same final set of
entities". -/
theorem c9_counterexample :
    (runWalker env9 (cfg9 "a") 6 st9).visitedInstitutions = [2, 9, 7]
    ∧ (runWalker env9 (cfg9 "b") 6 st9).visitedInstitutions = [7, 2]
    ∧ (9 : Nat) ∈ (runWalker env9 (cfg9 "a") 6 st9).visitedInstitutions
    ∧ (9 : Nat) ∉ (runWalker env9 (cfg9 "b") 6 st9).visitedInstitutions
    ∧ (runWalker env9 (cfg9 "a") 6 st9).todoCompany = []
    ∧ (runWalker env9 (cfg9 "a") 6 st9).todoInstitution = []
    ∧ (runWalker env9 (cfg9 "b") 6 st9).todoCompany = []
    ∧ (runWalker env9 (cfg9 "b") 6 st9).todoInstitution = [] := by
  set_option maxRecDepth 40000 in decide

end BillionBubbles
